import Mathlib

/-!
AVR-USB-CW keyer firmware: embedding of `firmware/main.c`.

The globals of `main.c` and the locals of `main` that live across loop
iterations are gathered in one `State` record; every C function becomes a
function on that record. Machine integers are natural numbers, reduced modulo
`2^w` wherever the C arithmetic can leave the range of its type.
-/

namespace AvrUsbCw

/-- Ways in which a step of the firmware can fail to produce a result. -/
inductive Fault where
  | Empty
  | OutOfRange
  | DivisionByZero
  | Stalled
  deriving DecidableEq, Repr

/-! ## RingQueue -/

/-- Modelled from the spec: the `ringbuffer` of `avr-utils/ringbuffer.h`, which is
not among the sources. The spec describes a fixed-capacity circular byte buffer
with wrapping head and tail indices and a `size` between 0 and the capacity;
`overflow` is the overflow counter the spec attaches to a `put` on a full queue. -/
structure ringbuffer where
  data : List Nat
  capacity : Nat
  size : Nat
  head : Nat
  tail : Nat
  overflow : Nat
  deriving DecidableEq, Repr

/-- Modelled from the spec: `ringbuffer_init` (absent header), an empty queue over
a backing array of `capacity` cells. -/
def ringbuffer_init (capacity : Nat) : ringbuffer :=
  { data := List.replicate capacity 0, capacity := capacity, size := 0,
    head := 0, tail := 0, overflow := 0 }

/-- Modelled from the spec: `put(byte)` of the absent `ringbuffer.h`. The byte is
written at the tail, which wraps; on a full queue the spec's choice is
overwrite-oldest with an overflow counter, so the head advances and the size
stays at the capacity. -/
def ringbuffer_put (q : ringbuffer) (b : Nat) : ringbuffer :=
  let data := q.data.set q.tail b
  let tail := (q.tail + 1) % q.capacity
  if q.size < q.capacity then
    { q with data := data, tail := tail, size := q.size + 1 }
  else
    { q with data := data, tail := tail, head := (q.head + 1) % q.capacity,
             overflow := q.overflow + 1 }

/-- Modelled from the spec: `get()` of the absent `ringbuffer.h`, FIFO dequeue
that fails with `Empty` when the size is 0. -/
def ringbuffer_get (q : ringbuffer) : Except Fault (Nat × ringbuffer) :=
  if q.size = 0 then .error Fault.Empty
  else .ok (q.data.getD q.head 0,
            { q with head := (q.head + 1) % q.capacity, size := q.size - 1 })

/-- Modelled from the spec: `get_nth(i)` of the absent `ringbuffer.h`, peek
without removing, failing with `OutOfRange` when `i ≥ size`. -/
def ringbuffer_get_nth (q : ringbuffer) (i : Nat) : Except Fault Nat :=
  if q.size ≤ i then .error Fault.OutOfRange
  else .ok (q.data.getD ((q.head + i) % q.capacity) 0)

/-- Modelled from the spec: `pop()` of the absent `ringbuffer.h`, removal of the
most recently enqueued byte (undo); the spec names no failure for it, an empty
queue is left as it is. -/
def ringbuffer_pop (q : ringbuffer) : ringbuffer :=
  if q.size = 0 then q
  else { q with tail := (q.tail + q.capacity - 1) % q.capacity, size := q.size - 1 }

/-- Modelled from the spec: `clear()` of the absent `ringbuffer.h`: size 0,
head = tail. -/
def ringbuffer_clear (q : ringbuffer) : ringbuffer :=
  { q with size := 0, head := q.tail }

/-- The bytes held by a queue, oldest first: what `get_nth 0`, `get_nth 1`, ...
return. -/
def ringbuffer.contents (q : ringbuffer) : List Nat :=
  (List.range q.size).map (fun i => q.data.getD ((q.head + i) % q.capacity) 0)

/-- The RingQueue invariant of the spec: the backing array has `capacity` cells,
`0 ≤ size ≤ capacity`, the head is inside the array and the tail is `size` cells
after the head, wrapping. -/
def ringbuffer.wf (q : ringbuffer) : Prop :=
  q.data.length = q.capacity ∧ 0 < q.capacity ∧ q.size ≤ q.capacity ∧
    q.head < q.capacity ∧ q.tail = (q.head + q.size) % q.capacity

instance (q : ringbuffer) : Decidable q.wf := by
  unfold ringbuffer.wf
  infer_instance

/-- Successive `ringbuffer_put` of the bytes of a list, first byte first. -/
def ringbuffer_puts (q : ringbuffer) (bs : List Nat) : ringbuffer :=
  bs.foldl ringbuffer_put q

/-! ## Globals of `main.c` -/

/-- The anonymous `config` struct of `main.c`. -/
structure Config where
  speed : Nat
  speed_unit : Nat
  tone : Nat
  inhibit_time : Nat
  deriving DecidableEq, Repr

/-- The globals of `main.c`, the function-static variables (`usbPrevDataToken`
of `usbFunctionWrite`, `dataBuffer` of `usbFunctionSetup`, `buffer` of
`getInterruptData`) and the locals `current_sign` and `sending` of `main`.
`output` is the level of the keying pin driven by `start_output` and
`stop_output`; `wave` records that level once per timer tick and `sent` the
notifications handed to `usbSetInterrupt`; `eeprom` is the persisted config
blob; `now` counts the timer interrupts and `polls` the calls of `process_usb`
since power-on. -/
structure State where
  config : Config
  dot_keying : Nat
  dash_keying : Nat
  timer : Nat
  keying_timer : Nat
  recv_buffer : ringbuffer
  bytesRemaining : Nat
  send_buffer : ringbuffer
  request_save_config : Nat
  usbPrevDataToken : Nat
  dataBuffer : List Nat
  buffer : List Nat
  current_sign : Nat
  sending : Nat
  output : Bool
  wave : List Bool
  sent : List (List Nat)
  eeprom : Config
  now : Nat
  polls : Nat
  deriving DecidableEq, Repr

/-- The state `setup_io` leaves when the persistent storage is blank:
`set_speed(20, 20)`, tone 600, both queues initialised with 128 cells. -/
def boot : State :=
  { config := { speed := 20, speed_unit := 60, tone := 600, inhibit_time := 20 },
    dot_keying := 0, dash_keying := 0, timer := 0, keying_timer := 0,
    recv_buffer := ringbuffer_init 128, bytesRemaining := 0,
    send_buffer := ringbuffer_init 128, request_save_config := 1,
    usbPrevDataToken := 0, dataBuffer := List.replicate 128 0,
    buffer := List.replicate 8 0, current_sign := 0, sending := 0,
    output := false, wave := [], sent := [],
    eeprom := { speed := 255, speed_unit := 255, tone := 65535, inhibit_time := 255 },
    now := 0, polls := 0 }

/-! ## USB control -/

/-- `set_speed` (main.c 135-145). `config.speed_unit` is a `uint8_t`, so the
quotient `1200 / speed` is stored modulo 256; the division has no result for
`wpm = 0`. `request_save_config` is a `uint8_t` counter. -/
def set_speed (wpm inhibit_time : Nat) (s : State) : Except Fault State :=
  if wpm = 0 then .error Fault.DivisionByZero
  else
    let speed_unit := (1200 / wpm) % 256
    let inhibit := if inhibit_time < speed_unit then inhibit_time else 0
    .ok { s with
      config := { s.config with speed := wpm, speed_unit := speed_unit,
                                inhibit_time := inhibit },
      request_save_config := (s.request_save_config + 1) % 256 }

/-- `usbFunctionWrite` (main.c 169-191). `usbCurrentDataToken` is the driver's
global holding the token of the chunk being delivered; `data` is the chunk and
`len` its length. Returns the new state and the function's return value. -/
def usbFunctionWrite (s : State) (usbCurrentDataToken : Nat) (data : List Nat) :
    State × Nat :=
  if s.usbPrevDataToken = usbCurrentDataToken then (s, 1)
  else
    let len := data.length
    let s1 := { s with usbPrevDataToken := usbCurrentDataToken,
                       recv_buffer := ringbuffer_puts s.recv_buffer data }
    let raised := if len > s1.bytesRemaining then len else s1.bytesRemaining
    let remaining := (raised - len) % 256
    let s2 := { s1 with bytesRemaining := remaining }
    if remaining ≠ 0 then (s2, 0)
    else ({ s2 with usbPrevDataToken := 0 }, 1)

/-- Modelled from the spec: the request codes of `usb_requests.h`, which is not
among the sources: `TEST`, `SEND`, `SPEED`, `STOP`, `BACK`, `TONE`, and any
unrecognised code. -/
inductive Request where
  | TEST
  | SEND
  | SPEED
  | STOP
  | BACK
  | TONE
  | other (code : Nat)
  deriving DecidableEq, Repr

/-- Modelled from the spec: the setup packet `usbRequest_t` of the absent driver
header `usbdrv/usbdrv.h`, with the fields `usbFunctionSetup` reads: request type,
request code and the 16-bit words `wValue`, `wIndex`, `wLength` (the spec's
`wValue.lo`, `wValue.hi`, `wIndex.lo`, `wIndex.hi` and host-requested length). -/
structure usbRequest where
  bmRequestType : Nat
  bRequest : Request
  wValue : Nat
  wIndex : Nat
  wLength : Nat
  deriving DecidableEq, Repr

/-- Modelled from the spec: the direction mask of the absent driver header
`usbdrv/usbdrv.h` (bit 7 of the request type tells the direction of a request,
the spec's "both directions"). -/
def USBRQ_DIR_MASK : Nat := 0x80

/-- Modelled from the spec: the host-to-device direction value of the absent
driver header `usbdrv/usbdrv.h`. -/
def USBRQ_DIR_HOST_TO_DEVICE : Nat := 0

/-- Modelled from the spec: the return value of the absent driver header
`usbdrv/usbdrv.h` by which `usbFunctionSetup` announces that the payload comes in
chunks through `usbFunctionWrite`, `(usbMsgLen_t)-1` for the 8-bit `usbMsgLen_t`. -/
def USB_NO_MSG : Nat := 255

/-- The copy loop of the device-to-host `SEND` branch (main.c 219-221):
`dataBuffer[i] = ringbuffer_get_nth(&recv_buffer, i)` for `i = 0 .. len-1`. -/
def peek_loop (q : ringbuffer) (len : Nat) (buf : List Nat) : Except Fault (List Nat) :=
  (List.range len).foldlM
    (fun buf i => (ringbuffer_get_nth q i).map (fun b => buf.set i b)) buf

/-- The padding loop of the device-to-host `SEND` branch (main.c 223):
`for (len = 8; i < len; i++) dataBuffer[i] = 0`, entered with `i` at `from_`. -/
def pad_loop (from_ : Nat) (buf : List Nat) : List Nat :=
  (List.range' from_ (8 - from_)).foldl (fun buf i => buf.set i 0) buf

/-- `usbFunctionSetup` (main.c 193-270). Returns the new state and the returned
length; the reply the driver sends is the first returned-length bytes of
`dataBuffer`. `bytesRemaining` is a `uint8_t`, so the 16-bit `wLength` is reduced
modulo 256 when it is assigned; the free space is computed in `int`. -/
def usbFunctionSetup (req : usbRequest) (s : State) : Except Fault (State × Nat) :=
  let h2d : Bool := req.bmRequestType &&& USBRQ_DIR_MASK = USBRQ_DIR_HOST_TO_DEVICE
  match req.bRequest with
  | Request.TEST =>
    let len := if 4 > req.wLength then req.wLength else 4
    let buf := (((s.dataBuffer.set 0 (req.wValue % 256)).set 1 (req.wValue / 256 % 256)).set 2
      (req.wIndex % 256)).set 3 (req.wIndex / 256 % 256)
    .ok ({ s with dataBuffer := buf }, len)
  | Request.SEND =>
    if h2d then
      let declared := req.wLength % 256
      let free : Int := (s.recv_buffer.capacity : Int) - (s.recv_buffer.size : Int)
      let remaining := if free < (declared : Int) then (free % 256).toNat else declared
      .ok ({ s with bytesRemaining := remaining }, USB_NO_MSG)
    else
      let len := if req.wLength < s.recv_buffer.size then req.wLength else s.recv_buffer.size
      (peek_loop s.recv_buffer len s.dataBuffer).map (fun buf =>
        if len < 8 then ({ s with dataBuffer := pad_loop len buf }, 8)
        else ({ s with dataBuffer := buf }, len))
  | Request.SPEED =>
    if h2d then
      (set_speed (req.wValue % 256) (req.wValue / 256 % 256) s).map (fun s => (s, 0))
    else
      .ok ({ s with dataBuffer :=
              (s.dataBuffer.set 0 s.config.speed).set 1 s.config.inhibit_time }, 2)
  | Request.STOP =>
    if h2d then .ok ({ s with recv_buffer := ringbuffer_clear s.recv_buffer }, 0)
    else .ok (s, 0)
  | Request.BACK =>
    if h2d then .ok ({ s with recv_buffer := ringbuffer_pop s.recv_buffer }, 0)
    else .ok (s, 0)
  | Request.TONE =>
    if h2d then
      .ok ({ s with config := { s.config with tone := req.wValue % 65536 },
                    request_save_config := (s.request_save_config + 1) % 256 }, 0)
    else
      .ok ({ s with dataBuffer :=
              (s.dataBuffer.set 0 (s.config.tone % 256)).set 1 (s.config.tone / 256 % 256) }, 2)
  | Request.other _ => .ok (s, 0)

/-- The loop of `getInterruptData` (main.c 82-88), entered with `len` and `k`
iterations left before `len` reaches 8 (`len + k = 8`). -/
def getInterruptData_loop : Nat → Nat → State → Except Fault (State × Nat)
  | 0, len, s => .ok (s, len)
  | k + 1, len, s =>
    if s.send_buffer.size ≠ 0 then
      (ringbuffer_get s.send_buffer).bind (fun r =>
        getInterruptData_loop k (len + 1)
          { s with buffer := s.buffer.set len r.1, send_buffer := r.2 })
    else .ok (s, len)

/-- `getInterruptData` (main.c 77-90): the notification is the first `len` bytes
of the static `buffer`. -/
def getInterruptData (s : State) : Except Fault (State × Nat) :=
  getInterruptData_loop 7 1 { s with buffer := s.buffer.set 0 s.recv_buffer.size }

/-! ## Environment, timer interrupt and waiting -/

/-- What the transport delivers at one poll: a setup request or one chunk of a
host-to-device payload with its data token. -/
inductive UsbEvent where
  | setup (req : usbRequest)
  | chunk (token : Nat) (data : List Nat)
  deriving DecidableEq, Repr

/-- The surroundings of the firmware. `dot n` and `dash n` tell whether the
paddle lines read closed at timer interrupt `n`; `usb p` is what `usbPoll`
processes at the `p`-th call of `process_usb`, `ready p` the answer of
`usbInterruptIsReady` and `eeprom_ready p` that of `eeprom_is_ready` there. -/
structure Env where
  dot : Nat → Bool
  dash : Nat → Bool
  usb : Nat → Option UsbEvent
  ready : Nat → Bool
  eeprom_ready : Nat → Bool

/-- The surroundings with no paddle contact and no host activity. -/
def quiet : Env :=
  { dot := fun _ => false, dash := fun _ => false, usb := fun _ => none,
    ready := fun _ => false, eeprom_ready := fun _ => true }

/-- The surroundings in which the host delivers no request and takes a
notification at every poll: `usbInterruptIsReady` answers true each time. -/
def polling : Env := { quiet with ready := fun _ => true }

/-- Modelled from the spec: `usbPoll` of the absent driver `usbdrv`, which the spec
exposes at the request-and-chunk level ("deliver request R; deliver chunk C"):
the delivered request goes to `usbFunctionSetup`, the delivered chunk to
`usbFunctionWrite` with its data token in `usbCurrentDataToken`. -/
def usbPoll (ev : Option UsbEvent) (s : State) : Except Fault State :=
  match ev with
  | none => .ok s
  | some (UsbEvent.setup req) => (usbFunctionSetup req s).map (fun r => r.1)
  | some (UsbEvent.chunk token data) => .ok (usbFunctionWrite s token data).1

/-- `process_usb` (main.c 92-100): `usbPoll`, then, when the interrupt endpoint
is ready, the notification built by `getInterruptData` is handed to
`usbSetInterrupt` (recorded in `sent`). -/
def process_usb (env : Env) (s : State) : Except Fault State :=
  (usbPoll (env.usb s.polls) s).bind (fun s1 =>
    let s2 := { s1 with polls := s1.polls + 1 }
    if env.ready s.polls then
      (getInterruptData s2).map (fun r =>
        if r.2 > 0 then { r.1 with sent := r.1.sent ++ [r.1.buffer.take r.2] } else r.1)
    else .ok s2)

/-- `ISR(TIMER0_COMPA_vect)` (main.c 102-113); `timer` and `keying_timer` are
16-bit. The level of the keying pin during the elapsed tick is appended to
`wave`. -/
def ISR (env : Env) (s : State) : State :=
  { s with
    timer := (s.timer + 1) % 65536
    keying_timer := if s.keying_timer ≠ 0 then (s.keying_timer + 1) % 65536 else s.keying_timer
    dot_keying := if env.dot s.now then 1 else s.dot_keying
    dash_keying := if env.dash s.now then 1 else s.dash_keying
    wave := s.wave ++ [s.output]
    now := s.now + 1 }

/-- The busy-wait of `delay_ms` (main.c 119-122): while `timer < end`, service
the link. The polls between two timer interrupts are folded into one call of
`process_usb`, after which the interrupt fires. `fuel` bounds the turns. -/
def delay_loop (env : Env) (end_ : Nat) : Nat → State → Except Fault State
  | 0, s => if s.timer < end_ then .error Fault.Stalled else .ok s
  | fuel + 1, s =>
    if s.timer < end_ then
      (process_usb env s).bind (fun s1 => delay_loop env end_ fuel (ISR env s1))
    else .ok s

/-- `delay_ms` (main.c 115-123); the argument is a `uint16_t`. The loop is run
with `end` turns of fuel, which is what it needs. -/
def delay_ms (env : Env) (t : Nat) (s : State) : Except Fault State :=
  let s0 := { s with timer := 0 }
  let end_ := (s0.timer + t % 65536) % 65536
  delay_loop env end_ end_ s0

/-- `start_output` (main.c 147-150): the keying pin goes high. The sidetone
registers written by `SET_TONE` are hardware outside the model. -/
def start_output (s : State) : State := { s with output := true }

/-- `stop_output` (main.c 152-155): the keying pin goes low. -/
def stop_output (s : State) : State := { s with output := false }

/-! ## Playback -/

/-- The number of zero bits of `x` above its highest set bit among the lowest
`k` bits. -/
def nlz_below (x : Nat) : Nat → Nat
  | 0 => 0
  | k + 1 => if x.testBit k then 0 else nlz_below x k + 1

/-- Modelled from the spec: `NLZ` of `nlz.h`, which is not among the sources:
the leading-zero count of a 32-bit value. -/
def NLZ (x : Nat) : Nat := nlz_below x 32

/-- The body of the loop of `send_morse_code` (main.c 343-348) for bit `i`. -/
def send_morse_code_bit (env : Env) (current_sign i : Nat) (s : State) :
    Except Fault State :=
  let s1 := if (current_sign >>> i) &&& 1 ≠ 0 then start_output s else stop_output s
  delay_ms env s1.config.speed_unit s1

/-- The loop of `send_morse_code` (main.c 342-349), `i` running down to 0. -/
def send_morse_code_loop (env : Env) (current_sign : Nat) : Nat → State → Except Fault State
  | 0, s => send_morse_code_bit env current_sign 0 s
  | i + 1, s =>
    (send_morse_code_bit env current_sign (i + 1) s).bind
      (send_morse_code_loop env current_sign i)

/-- `send_morse_code` (main.c 337-352). For a sign with bit 31 set the loop
starts at `i = 32`, where the C shift has no defined value; here it reads 0. -/
def send_morse_code (env : Env) (current_sign : Nat) (s : State) : Except Fault State :=
  let current_bit := 32 - NLZ current_sign
  (send_morse_code_loop env current_sign current_bit s).bind (fun s1 =>
    let s2 := stop_output s1
    delay_ms env (s2.config.speed_unit * 3) s2)

/-! ## Main loop -/

/-- The dot append of main.c 378, `current_sign << 2 | 0b01` on the `uint32_t`
sign. -/
def key_dot (current_sign : Nat) : Nat := ((current_sign <<< 2) ||| 0b01) % 2 ^ 32

/-- The dash append of main.c 393, `current_sign << 4 | 0b0111` on the `uint32_t`
sign. -/
def key_dash (current_sign : Nat) : Nat := ((current_sign <<< 4) ||| 0b0111) % 2 ^ 32

/-- The dot branch of the main loop (main.c 374-387). The last wait is
`speed_unit - inhibit_time` computed in `int` and passed as `uint16_t`. -/
def dot_step (env : Env) (s : State) : Except Fault State :=
  if s.dot_keying ≠ 0 then
    let s1 := { s with recv_buffer := ringbuffer_clear s.recv_buffer, sending := 1,
                       current_sign := key_dot s.current_sign }
    (delay_ms env s1.config.speed_unit (start_output s1)).bind (fun s2 =>
    (delay_ms env s2.config.inhibit_time (stop_output s2)).bind (fun s3 =>
    let s4 := { s3 with dot_keying := 0 }
    (delay_ms env
      (((s4.config.speed_unit : Int) - (s4.config.inhibit_time : Int)) % 65536).toNat s4).bind
      (fun s5 => .ok { s5 with keying_timer := 1 })))
  else .ok s

/-- The dash branch of the main loop (main.c 389-402). -/
def dash_step (env : Env) (s : State) : Except Fault State :=
  if s.dash_keying ≠ 0 then
    let s1 := { s with recv_buffer := ringbuffer_clear s.recv_buffer, sending := 1,
                       current_sign := key_dash s.current_sign }
    (delay_ms env (s1.config.speed_unit * 3) (start_output s1)).bind (fun s2 =>
    (delay_ms env s2.config.inhibit_time (stop_output s2)).bind (fun s3 =>
    let s4 := { s3 with dash_keying := 0 }
    (delay_ms env
      (((s4.config.speed_unit : Int) - (s4.config.inhibit_time : Int)) % 65536).toNat s4).bind
      (fun s5 => .ok { s5 with keying_timer := 1 })))
  else .ok s

/-- The flush loop of the gap step (main.c 412-414): `i` runs 4, 3, 2, 1 and
byte `(current_sign >> ((i-1) * 8)) & 0xff` is put. -/
def flush_loop (current_sign : Nat) (q : ringbuffer) : ringbuffer :=
  [4, 3, 2, 1].foldl
    (fun q i => ringbuffer_put q ((current_sign >>> ((i - 1) * 8)) &&& 0xff)) q

/-- The gap step of the main loop (main.c 404-418). -/
def gap_step (s : State) : State :=
  if s.config.speed_unit * 6 < s.keying_timer ∧ s.sending = 0 then
    { s with keying_timer := 0, send_buffer := ringbuffer_put s.send_buffer 0x20 }
  else if s.config.speed_unit * 2 < s.keying_timer then
    if s.sending ≠ 0 then
      { s with send_buffer := flush_loop s.current_sign (ringbuffer_put s.send_buffer 0xff),
               sending := 0, current_sign := 0 }
    else s
  else s

/-- The value of `character << k` in main.c 433 once it is or-ed into the
`uint32_t` sign: `character` is promoted to the 16-bit `int` of the target, the
shifted value wraps to 16 bits and is sign-extended to 32 bits. For `k ≥ 16` C
leaves the shift undefined; the shifted-out value 0 is taken. -/
def shl_int (character k : Nat) : Nat :=
  if k < 16 then
    let v := (character <<< k) % 65536
    if v < 32768 then v else v + 0xFFFF0000
  else 0

/-- The wait of the custom-code branch (main.c 429):
`while (recv_buffer.size < 4) delay_ms(10)`, with `fuel` bounding the turns. -/
def custom_wait (env : Env) : Nat → State → Except Fault State
  | 0, s => if s.recv_buffer.size < 4 then .error Fault.Stalled else .ok s
  | fuel + 1, s =>
    if s.recv_buffer.size < 4 then (delay_ms env 10 s).bind (custom_wait env fuel)
    else .ok s

/-- The read loop of the custom-code branch (main.c 430-434), `i = 0 .. 3`. -/
def custom_loop (s : State) : Except Fault State :=
  [0, 1, 2, 3].foldlM
    (fun s i => (ringbuffer_get s.recv_buffer).map (fun r =>
      { s with recv_buffer := r.2, send_buffer := ringbuffer_put s.send_buffer r.1,
               current_sign := (s.current_sign ||| shl_int r.1 (i * 8)) % 2 ^ 32 })) s

/-- The inbound step of the main loop (main.c 420-442). `MORSE_CODES` is the
table of `morse.h`, which is not among the sources, taken as a parameter. -/
def inbound_step (MORSE_CODES : Nat → Nat) (env : Env) (fuel : Nat) (s : State) :
    Except Fault State :=
  if s.recv_buffer.size > 0 then
    (ringbuffer_get s.recv_buffer).bind (fun r =>
      let character := r.1
      let s1 := { s with recv_buffer := r.2 }
      let done : Except Fault State :=
        if character = 0x20 then
          delay_ms env (s1.config.speed_unit * 4)
            { s1 with send_buffer := ringbuffer_put s1.send_buffer character }
        else if character = 0xff then
          (custom_wait env fuel
            { s1 with send_buffer := ringbuffer_put s1.send_buffer 0xff,
                      current_sign := 0 }).bind (fun s2 =>
            (custom_loop s2).bind (fun s3 => send_morse_code env s3.current_sign s3))
        else
          let s2 := { s1 with current_sign := MORSE_CODES character % 2 ^ 32,
                              send_buffer := ringbuffer_put s1.send_buffer character }
          send_morse_code env s2.current_sign s2
      done.map (fun s4 => { s4 with current_sign := 0 }))
  else .ok s

/-- The write-back of the main loop (main.c 444-447). -/
def save_step (env : Env) (s : State) : State :=
  if s.request_save_config ≠ 0 ∧ env.eeprom_ready s.polls = true then
    { s with eeprom := s.config, request_save_config := 0 }
  else s

/-- One iteration of the `for (;;)` body of `main` (main.c 371-447). -/
def main_iter (MORSE_CODES : Nat → Nat) (env : Env) (fuel : Nat) (s : State) :
    Except Fault State :=
  (process_usb env s).bind (fun s1 =>
  (dot_step env s1).bind (fun s2 =>
  (dash_step env s2).bind (fun s3 =>
  (inbound_step MORSE_CODES env fuel (gap_step s3)).map (save_step env))))

/-- What happens next while the main loop is not inside a wait: the timer
interrupt fires, or the loop runs one iteration. -/
inductive Event where
  | tick
  | loop
  deriving DecidableEq, Repr

/-- The firmware run along a schedule of interrupts and loop iterations. -/
def run (MORSE_CODES : Nat → Nat) (env : Env) (fuel : Nat) :
    List Event → State → Except Fault State
  | [], s => .ok s
  | Event.tick :: es, s => run MORSE_CODES env fuel es (ISR env s)
  | Event.loop :: es, s =>
    (main_iter MORSE_CODES env fuel s).bind (run MORSE_CODES env fuel es)

/-! ## Dot/dash sequences and their PackedSign -/

/-- The two Morse elements. -/
inductive Element where
  | dot
  | dash
  deriving DecidableEq, Repr

/-- The keying append of one element to a sign: `key_dot` or `key_dash`. -/
def key_element (current_sign : Nat) : Element → Nat
  | Element.dot => key_dot current_sign
  | Element.dash => key_dash current_sign

/-- The sign the main loop assembles when the elements of a sequence are keyed
one after the other, starting from 0. -/
def encode (seq : List Element) : Nat := seq.foldl key_element 0

/-- The number of bits an element takes in a sign: 2 for a dot, 4 for a dash. -/
def Element.width : Element → Nat
  | Element.dot => 2
  | Element.dash => 4

/-- The number of bits a sequence takes in a sign. -/
def packed_width (seq : List Element) : Nat := (seq.map Element.width).sum

/-- The tone length of an element in units: 1 for a dot, 3 for a dash. -/
def Element.units : Element → Nat
  | Element.dot => 1
  | Element.dash => 3

/-- The bits `n-1, ..., 0` of `x`, highest first. -/
def bits_desc (x : Nat) : Nat → List Bool
  | 0 => []
  | n + 1 => x.testBit n :: bits_desc x n

/-- The bit pattern of an element group: one 0 and then one 1 per tone unit. -/
def Element.group (e : Element) : List Bool := false :: List.replicate e.units true

/-- The levels `send_morse_code_loop` sets for `i` down to 0, one per unit: bit
`i` of the sign first. -/
def played_bits (current_sign : Nat) : Nat → List Bool
  | 0 => [(current_sign >>> 0) &&& 1 ≠ 0]
  | i + 1 => decide ((current_sign >>> (i + 1)) &&& 1 ≠ 0) :: played_bits current_sign i

/-- The levels `send_morse_code` holds, one per unit: the bits from `current_bit`
down to 0 and the three closing units with the output off. -/
def played_units (current_sign : Nat) : List Bool :=
  played_bits current_sign (32 - NLZ current_sign) ++ [false, false, false]

/-- A tone-on run of 1 unit is a dot, of 3 units a dash; no other run is an
element. -/
def classify_run : Nat → Option Element
  | 1 => some Element.dot
  | 3 => some Element.dash
  | _ => none

/-- Reading elements off a sequence of unit levels; `run` is the length of the
tone-on run being read. -/
def decode_units : List Bool → Nat → Option (List Element)
  | [], 0 => some []
  | [], run + 1 => (classify_run (run + 1)).map (fun e => [e])
  | false :: us, 0 => decode_units us 0
  | false :: us, run + 1 =>
    (classify_run (run + 1)).bind (fun e => (decode_units us 0).map (fun es => e :: es))
  | true :: us, run => decode_units us (run + 1)

/-- The elements read back from a sign in the order `send_morse_code` plays
them. -/
def decode (current_sign : Nat) : Option (List Element) :=
  decode_units (played_units current_sign) 0

/-- The keying line per timer tick as `send_morse_code` drives it for a sequence,
at `unit` ticks per unit: for each element `unit` ticks off and then 1 or 3 units
on, and 3 units off at the end. -/
def played_wave (unit : Nat) (seq : List Element) : List Bool :=
  (seq.map (fun e => List.replicate unit false ++ List.replicate (e.units * unit) true)).flatten
    ++ List.replicate (3 * unit) false

/-- The keying line per timer tick as the spec words it: for each element 1 or 3
units on followed by 1 unit off, and a further 3 units off at the end. -/
def worded_wave (unit : Nat) (seq : List Element) : List Bool :=
  (seq.map (fun e => List.replicate (e.units * unit) true ++ List.replicate unit false)).flatten
    ++ List.replicate (3 * unit) false

/-- A state with the fields that the timer interrupt and an idle poll advance
blanked: two states with the same image differ in the clock only. -/
def State.clockless (s : State) : State :=
  { s with timer := 0, keying_timer := 0, wave := [], now := 0, polls := 0 }

/-- What servicing the link with no request delivered does to the queues between
a state `s` and a later state `s'`: Inbound and the configuration are as in `s`,
the static `buffer` keeps its size, Outbound stays well formed, and the bytes
that left Outbound are the payloads (all but the leading Inbound-size byte) of
the notifications `ns` handed to the host since `s`, oldest first, so that
nothing was put into Outbound; where the endpoint is never ready, Outbound and
the notifications are as in `s`. -/
def State.served (env : Env) (s s' : State) : Prop :=
  s'.recv_buffer = s.recv_buffer ∧ s'.config = s.config ∧
  s'.buffer.length = s.buffer.length ∧ s'.send_buffer.wf ∧
  (∃ ns, s'.sent = s.sent ++ ns ∧
    (ns.map List.tail).flatten ++ s'.send_buffer.contents = s.send_buffer.contents) ∧
  ((∀ p, env.ready p = false) → s'.send_buffer = s.send_buffer ∧ s'.sent = s.sent)

/-! ## RingQueue lemmas -/

theorem ringbuffer_contents_length (q : ringbuffer) : q.contents.length = q.size := by
  simp [ringbuffer.contents]

theorem ringbuffer_get_nth_contents (q : ringbuffer) (i : Nat) (h : i < q.size) :
    ringbuffer_get_nth q i = .ok (q.contents.getD i 0) := by
  have hi : i < q.contents.length := by rw [ringbuffer_contents_length]; exact h
  rw [ringbuffer_get_nth, if_neg (by omega), List.getD_eq_getElem _ _ hi]
  simp [ringbuffer.contents]

/-- A `get` on a non-empty well-formed queue returns the oldest byte and leaves a
well-formed queue holding the rest in the same order. -/
theorem ringbuffer_get_contents (q : ringbuffer) (hwf : q.wf) (h : q.size ≠ 0) :
    ∃ v q', ringbuffer_get q = .ok (v, q') ∧ q.contents = v :: q'.contents ∧ q'.wf ∧
      q'.size = q.size - 1 := by
  obtain ⟨hlen, hcap, hsize, hhead, htail⟩ := hwf
  refine ⟨_, _, by rw [ringbuffer_get, if_neg h], ?_, ?_, rfl⟩
  · obtain ⟨n, hn⟩ : ∃ n, q.size = n + 1 := ⟨q.size - 1, by omega⟩
    simp only [ringbuffer.contents, hn, Nat.add_sub_cancel, List.range_succ_eq_map,
      List.map_cons, List.map_map, Nat.add_zero, Nat.mod_eq_of_lt hhead]
    congr 1
    apply List.map_congr_left
    intro i _
    simp only [Function.comp, Nat.succ_eq_add_one, Nat.mod_add_mod]
    rw [show q.head + 1 + i = q.head + (i + 1) by omega]
  · refine ⟨hlen, hcap, ?_, Nat.mod_lt _ hcap, ?_⟩
    · show q.size - 1 ≤ q.capacity
      omega
    · show q.tail = ((q.head + 1) % q.capacity + (q.size - 1)) % q.capacity
      rw [htail, Nat.mod_add_mod]
      congr 1
      omega

/-- A `put` on a well-formed queue with room appends the byte. -/
theorem ringbuffer_put_contents (q : ringbuffer) (b : Nat) (hwf : q.wf)
    (h : q.size < q.capacity) :
    (ringbuffer_put q b).contents = q.contents ++ [b] ∧ (ringbuffer_put q b).wf ∧
      (ringbuffer_put q b).size = q.size + 1 ∧
      (ringbuffer_put q b).capacity = q.capacity := by
  obtain ⟨hlen, hcap, hsize, hhead, htail⟩ := hwf
  have hput : ringbuffer_put q b =
      { q with
        data := q.data.set q.tail b, tail := (q.tail + 1) % q.capacity,
        size := q.size + 1 } := by
    simp only [ringbuffer_put, if_pos h]
  have htl : q.tail < q.data.length := by rw [htail, hlen]; exact Nat.mod_lt _ hcap
  rw [hput]
  refine ⟨?_, ⟨by simpa using hlen, hcap, h, hhead, ?_⟩, rfl, rfl⟩
  · simp only [ringbuffer.contents, List.range_succ, List.map_append, List.map_cons,
      List.map_nil]
    congr 1
    · apply List.map_congr_left
      intro i hi
      rw [List.mem_range] at hi
      have hne : q.tail ≠ (q.head + i) % q.capacity := by
        rw [htail]
        intro heq
        have hmod : q.size ≡ i [MOD q.capacity] := Nat.ModEq.add_left_cancel' q.head heq
        have := Nat.ModEq.eq_of_lt_of_lt hmod h (by omega)
        omega
      simp [List.getD_eq_getElem?_getD, List.getElem?_set, hne]
    · rw [← htail]
      simp [List.getD_eq_getElem?_getD, List.getElem?_set, htl]
  · show (q.tail + 1) % q.capacity = (q.head + (q.size + 1)) % q.capacity
    rw [htail, Nat.mod_add_mod]
    congr 1

/-- Successive `put`s on a well-formed queue with room for them append the bytes
in their order. -/
theorem ringbuffer_puts_contents (bs : List Nat) (q : ringbuffer) (hwf : q.wf)
    (h : q.size + bs.length ≤ q.capacity) :
    (ringbuffer_puts q bs).contents = q.contents ++ bs ∧ (ringbuffer_puts q bs).wf ∧
      (ringbuffer_puts q bs).size = q.size + bs.length ∧
      (ringbuffer_puts q bs).capacity = q.capacity := by
  induction bs generalizing q with
  | nil => exact ⟨by simp [ringbuffer_puts], hwf, rfl, rfl⟩
  | cons b bs ih =>
    simp only [List.length_cons] at h
    obtain ⟨hc, hw, hs, hk⟩ := ringbuffer_put_contents q b hwf (by omega)
    obtain ⟨hc2, hw2, hs2, hk2⟩ := ih (ringbuffer_put q b) hw (by omega)
    simp only [ringbuffer_puts, List.foldl_cons] at hc2 hw2 hs2 hk2 ⊢
    refine ⟨by rw [hc2, hc]; simp, hw2, by rw [hs2, hs]; simp; omega, by rw [hk2, hk]⟩

/-! ## Notification and peek -/

theorem take_set_self (l : List Nat) (n a : Nat) : (l.set n a).take n = l.take n := by
  induction l generalizing n with
  | nil => simp
  | cons x xs ih =>
    cases n with
    | zero => simp
    | succ n => simp [ih]

/-- The loop of `getInterruptData` always returns, and touches nothing but the
static `buffer` and the Outbound queue. -/
theorem getInterruptData_loop_frame (k : Nat) (len : Nat) (s : State) :
    ∃ s' n, getInterruptData_loop k len s = .ok (s', n) ∧
      s' = { s with buffer := s'.buffer, send_buffer := s'.send_buffer } := by
  induction k generalizing len s with
  | zero => exact ⟨s, len, rfl, rfl⟩
  | succ k ih =>
    by_cases h : s.send_buffer.size = 0
    · exact ⟨s, len, by simp [getInterruptData_loop, h], rfl⟩
    · obtain ⟨s', n, h1, h2⟩ := ih (len + 1)
        { s with
          buffer := s.buffer.set len (s.send_buffer.data.getD s.send_buffer.head 0),
          send_buffer :=
            { s.send_buffer with
              head := (s.send_buffer.head + 1) % s.send_buffer.capacity,
              size := s.send_buffer.size - 1 } }
      refine ⟨s', n, ?_, ?_⟩
      · simp only [getInterruptData_loop, ne_eq, h, not_false_eq_true, if_true,
          ringbuffer_get, if_false, Except.bind]
        exact h1
      · rw [h2]

/-- The loop of `getInterruptData` on a well-formed Outbound queue: it moves the
oldest `min k size` bytes, in order, to `buffer[len ..]`. -/
theorem getInterruptData_loop_spec (k : Nat) (len : Nat) (s : State)
    (hwf : s.send_buffer.wf) (hbuf : len + k ≤ s.buffer.length) :
    ∃ s', getInterruptData_loop k len s = .ok (s', len + min k s.send_buffer.size) ∧
      s'.buffer.take (len + min k s.send_buffer.size)
        = s.buffer.take len ++ s.send_buffer.contents.take (min k s.send_buffer.size) ∧
      s'.send_buffer.contents = s.send_buffer.contents.drop (min k s.send_buffer.size) ∧
      s'.send_buffer.wf ∧
      s' = { s with buffer := s'.buffer, send_buffer := s'.send_buffer } := by
  induction k generalizing len s with
  | zero => exact ⟨s, by simp [getInterruptData_loop], by simp, by simp, hwf, rfl⟩
  | succ k ih =>
    by_cases h : s.send_buffer.size = 0
    · refine ⟨s, by simp [getInterruptData_loop, h], by simp [h], by simp [h], hwf, rfl⟩
    · obtain ⟨v, q', hget, hcont, hwf', hsz⟩ := ringbuffer_get_contents s.send_buffer hwf h
      obtain ⟨s', h1, h2, h3, h4, h5⟩ := ih (len + 1)
        { s with buffer := s.buffer.set len v, send_buffer := q' } hwf'
        (by simp only [List.length_set]; omega)
      have hmin : min (k + 1) s.send_buffer.size = min k q'.size + 1 := by
        rw [hsz]; omega
      refine ⟨s', ?_, ?_, ?_, h4, ?_⟩
      · simp only [getInterruptData_loop, ne_eq, h, not_false_eq_true, if_true, hget,
          Except.bind]
        rw [h1, hmin]
        congr 2
        simp only
        omega
      · rw [hmin, show len + (min k q'.size + 1) = len + 1 + min k q'.size by omega]
        simp only at h2
        rw [h2, hcont, List.take_succ_cons, List.take_succ, take_set_self]
        simp [List.getElem?_set, show len < s.buffer.length by omega]
      · rw [hmin, hcont, List.drop_succ_cons]
        exact h3
      · rw [h5]

/-- C9: for every state whose Outbound queue is well formed, `getInterruptData`
returns length `1 + min 7 Outbound.size`; the notification (the first `len` bytes
of `buffer`) is the Inbound size followed by the oldest `len - 1` Outbound bytes
in FIFO order; Outbound keeps the remaining bytes in their order; nothing but
`buffer` and Outbound changes, so Inbound is as before. -/
theorem getInterruptData_notification (s : State) (hwf : s.send_buffer.wf)
    (hbuf : s.buffer.length = 8) :
    ∃ s', getInterruptData s = .ok (s', 1 + min 7 s.send_buffer.size) ∧
      1 ≤ 1 + min 7 s.send_buffer.size ∧ 1 + min 7 s.send_buffer.size ≤ 8 ∧
      s'.buffer.take (1 + min 7 s.send_buffer.size)
        = s.recv_buffer.size :: s.send_buffer.contents.take (min 7 s.send_buffer.size) ∧
      s'.send_buffer.contents = s.send_buffer.contents.drop (min 7 s.send_buffer.size) ∧
      s'.recv_buffer = s.recv_buffer ∧
      s' = { s with buffer := s'.buffer, send_buffer := s'.send_buffer } := by
  obtain ⟨s', h1, h2, h3, _, h5⟩ := getInterruptData_loop_spec 7 1
    { s with buffer := s.buffer.set 0 s.recv_buffer.size } hwf
    (by simp only [List.length_set]; omega)
  refine ⟨s', h1, by omega, by omega, ?_, h3, by rw [h5], by rw [h5]⟩
  simp only at h2
  rw [h2]
  obtain ⟨b, bs, hb⟩ : ∃ b bs, s.buffer = b :: bs := by
    cases hs : s.buffer with
    | nil => rw [hs] at hbuf; simp at hbuf
    | cons b bs => exact ⟨b, bs, rfl⟩
  simp [hb]

set_option maxRecDepth 100000 in
/-- Witness of C9: a state with Inbound holding 2 bytes and Outbound holding 9;
the notification is `[2, 1, 2, 3, 4, 5, 6, 7]` and Outbound keeps `[8, 9]`. -/
theorem getInterruptData_notification_witness :
    ∃ s', getInterruptData
        { boot with
          recv_buffer := ringbuffer_puts boot.recv_buffer [0x41, 0x42],
          send_buffer := ringbuffer_puts boot.send_buffer [1, 2, 3, 4, 5, 6, 7, 8, 9] }
        = .ok (s', 1 + min 7 9) ∧
      1 ≤ 1 + min 7 9 ∧ 1 + min 7 9 ≤ 8 ∧
      s'.buffer.take (1 + min 7 9) = 2 :: [1, 2, 3, 4, 5, 6, 7] ∧
      s'.send_buffer.contents = [8, 9] ∧
      s'.recv_buffer = ringbuffer_puts boot.recv_buffer [0x41, 0x42] ∧
      s' = { s' with buffer := s'.buffer } :=
  (getInterruptData_notification
    { boot with
      recv_buffer := ringbuffer_puts boot.recv_buffer [0x41, 0x42],
      send_buffer := ringbuffer_puts boot.send_buffer [1, 2, 3, 4, 5, 6, 7, 8, 9] }
    (by decide) (by decide)).imp
    (fun _ h => ⟨h.1, h.2.1, h.2.2.1, h.2.2.2.1, h.2.2.2.2.1, h.2.2.2.2.2.1, rfl⟩)

theorem set_take_drop (c buf : List Nat) (n x : Nat) (hc : n ≤ c.length)
    (hb : n < buf.length) :
    (c.take n ++ buf.drop n).set n x = c.take n ++ x :: buf.drop (n + 1) := by
  rw [List.set_append, if_neg (by simp [hc])]
  simp only [List.length_take, Nat.min_eq_left hc, Nat.sub_self]
  rw [List.drop_eq_getElem_cons hb, List.set_cons_zero]

theorem pad_take (c : List Nat) (m : Nat) (hc : c.length = m) (hm : m ≤ 8)
    (rest : List Nat) :
    (c ++ List.replicate (8 - m) 0 ++ rest).take 8 = c ++ List.replicate (8 - m) 0 := by
  apply List.take_left'
  simp [hc]; omega

/-- The copy loop puts the oldest `len` bytes of the queue, in order, at the
front of the buffer and leaves the rest of the buffer as it was. -/
theorem peek_loop_spec (q : ringbuffer) (len : Nat) (buf : List Nat)
    (hlen : len ≤ q.size) (hbuf : len ≤ buf.length) :
    peek_loop q len buf = .ok (q.contents.take len ++ buf.drop len) := by
  induction len with
  | zero => simp [peek_loop, pure, Except.pure]
  | succ n ih =>
    have ih' := ih (by omega) (by omega)
    have hn : n < q.contents.length := by rw [ringbuffer_contents_length]; omega
    unfold peek_loop at ih' ⊢
    rw [List.range_succ, List.foldlM_append, ih']
    simp only [List.foldlM_cons, List.foldlM_nil, bind, Except.bind, pure, Except.pure,
      ringbuffer_get_nth_contents q n (by omega), Except.map]
    rw [set_take_drop _ _ _ _ (by omega) (by omega), List.take_succ,
      List.getElem?_eq_getElem hn, List.getD_eq_getElem _ _ hn, Option.toList_some,
      List.append_assoc, List.singleton_append]

/-- The padding loop writes zeros from `from_` on, `n` of them. -/
theorem pad_range_spec (n from_ : Nat) (buf : List Nat) (h : from_ + n ≤ buf.length) :
    (List.range' from_ n).foldl (fun buf i => buf.set i 0) buf
      = buf.take from_ ++ List.replicate n 0 ++ buf.drop (from_ + n) := by
  induction n generalizing from_ buf with
  | zero => simp
  | succ n ih =>
    rw [List.range'_succ, List.foldl_cons, ih (from_ + 1) (buf.set from_ 0)
      (by simp only [List.length_set]; omega), List.take_succ, take_set_self]
    simp only [List.getElem?_set, if_true, show from_ < buf.length by omega,
      Option.toList_some, List.append_assoc, List.singleton_append, List.replicate_succ,
      List.cons_append, List.nil_append]
    rw [List.drop_set, if_pos (by omega), show from_ + 1 + n = from_ + (n + 1) by omega]

/-- C10: for every state whose Inbound queue holds `n ≤ 128` bytes and every
host-requested length `L`, the device-to-host `SEND` request returns the length
`max 8 (min n L)`; the response (the first returned-length bytes of `dataBuffer`)
is the oldest `min n L` Inbound bytes in FIFO order followed by zeros up to
position 8; nothing but `dataBuffer` changes, so Inbound is as before. -/
theorem usbFunctionSetup_send_peek (s : State) (req : usbRequest)
    (hreq : req.bRequest = Request.SEND)
    (hdir : req.bmRequestType &&& USBRQ_DIR_MASK ≠ USBRQ_DIR_HOST_TO_DEVICE)
    (hn : s.recv_buffer.size ≤ 128) (hbuf : s.dataBuffer.length = 128) :
    ∃ s', usbFunctionSetup req s
        = .ok (s', max 8 (min s.recv_buffer.size req.wLength)) ∧
      s'.dataBuffer.take (max 8 (min s.recv_buffer.size req.wLength))
        = s.recv_buffer.contents.take (min s.recv_buffer.size req.wLength)
          ++ List.replicate (8 - min s.recv_buffer.size req.wLength) 0 ∧
      s'.recv_buffer = s.recv_buffer ∧
      s'.recv_buffer.contents = s.recv_buffer.contents ∧
      s' = { s with dataBuffer := s'.dataBuffer } := by
  have hlen : (if req.wLength < s.recv_buffer.size then req.wLength else s.recv_buffer.size)
      = min s.recv_buffer.size req.wLength := by
    split_ifs <;> omega
  have hcl : (s.recv_buffer.contents.take (min s.recv_buffer.size req.wLength)).length
      = min s.recv_buffer.size req.wLength := by
    rw [List.length_take, ringbuffer_contents_length]
    omega
  simp only [usbFunctionSetup, hreq, hdir, decide_False, Bool.false_eq_true, if_false, hlen,
    peek_loop_spec s.recv_buffer (min s.recv_buffer.size req.wLength) s.dataBuffer
      (by omega) (by omega), Except.map]
  by_cases h8 : min s.recv_buffer.size req.wLength < 8
  · rw [if_pos h8, max_eq_left (by omega)]
    refine ⟨_, rfl, ?_, rfl, rfl, rfl⟩
    simp only [pad_loop]
    rw [pad_range_spec _ _ _ (by simp only [List.length_append, hcl, List.length_drop]; omega),
      List.take_left' hcl]
    exact pad_take _ _ hcl (by omega) _
  · rw [if_neg h8, max_eq_right (by omega)]
    refine ⟨_, rfl, ?_, rfl, rfl, rfl⟩
    simp only
    rw [List.take_left' hcl, show 8 - min s.recv_buffer.size req.wLength = 0 by omega]
    simp

set_option maxRecDepth 100000 in
/-- Witness of C10: Inbound holds `[0x41, 0x42, 0x43]` and the host asks for 2
bytes; the response has length 8 and is `[0x41, 0x42, 0, 0, 0, 0, 0, 0]`. -/
theorem usbFunctionSetup_send_peek_witness :
    ∃ s', usbFunctionSetup
        { bmRequestType := 0xC0, bRequest := Request.SEND, wValue := 0, wIndex := 0,
          wLength := 2 }
        { boot with recv_buffer := ringbuffer_puts boot.recv_buffer [0x41, 0x42, 0x43] }
        = .ok (s', 8) ∧
      s'.dataBuffer.take 8 = [0x41, 0x42, 0, 0, 0, 0, 0, 0] ∧
      s'.recv_buffer.contents = [0x41, 0x42, 0x43] :=
  (usbFunctionSetup_send_peek
    { boot with recv_buffer := ringbuffer_puts boot.recv_buffer [0x41, 0x42, 0x43] }
    { bmRequestType := 0xC0, bRequest := Request.SEND, wValue := 0, wIndex := 0,
      wLength := 2 }
    rfl (by decide) (by decide) (by decide)).imp
    (fun _ h => ⟨h.1, h.2.1, h.2.2.2.1⟩)

/-! ## Chunked host-to-device transfer -/

/-- C1, the code at the failing input: from power-on the host declares a `SEND`
of one byte (`bytesRemaining = 1`, Inbound empty, no stored token) and delivers
the chunk `[0x41]` with token 75. The chunk completes the transfer, which resets
the stored token to 0; delivered once it leaves `[0x41]` in Inbound, delivered a
second time with the same token it is appended again. -/
theorem usbFunctionWrite_final_chunk_repeated :
    ∃ s1, usbFunctionSetup
        { bmRequestType := 0x40, bRequest := Request.SEND, wValue := 0, wIndex := 0,
          wLength := 1 } boot = .ok (s1, USB_NO_MSG) ∧
      s1.bytesRemaining = 1 ∧ s1.usbPrevDataToken = 0 ∧ s1.recv_buffer.contents = [] ∧
      (usbFunctionWrite s1 75 [0x41]).1.recv_buffer.contents = [0x41] ∧
      (usbFunctionWrite s1 75 [0x41]).1.usbPrevDataToken = 0 ∧
      (usbFunctionWrite (usbFunctionWrite s1 75 [0x41]).1 75 [0x41]).1.recv_buffer.contents
        = [0x41, 0x41] :=
  ⟨{ boot with bytesRemaining := 1 }, rfl, rfl, rfl, by decide, by decide, by decide,
    by decide⟩

/-- While the transfer is incomplete a repeated token is suppressed: when the
first delivery leaves `bytesRemaining` nonzero (it returns 0), a second delivery
with the same token changes nothing. -/
theorem usbFunctionWrite_repeat_suppressed (s : State) (token : Nat) (data : List Nat)
    (h : (usbFunctionWrite s token data).2 = 0) :
    usbFunctionWrite (usbFunctionWrite s token data).1 token data
      = ((usbFunctionWrite s token data).1, 1) := by
  unfold usbFunctionWrite at h ⊢
  by_cases h1 : s.usbPrevDataToken = token
  · simp [h1] at h
  · by_cases h2 : ((if data.length > s.bytesRemaining then data.length
        else s.bytesRemaining) - data.length) % 256 = 0
    · simp [h1, h2] at h
    · simp [h1, h2]

/-- C2: for every wpm in 1..255 and inhibit_time in 0..255, `set_speed`, and with
it the host-to-device `SPEED` request carrying the two bytes, returns a state
that stores the given speed, the unit `1200 / wpm` cut to 8 bits, and an
`inhibit_time` that is 0 when the given one is at least the stored `speed_unit`
and is the given one when it is below the stored `speed_unit`; beside these three
settings only the save-request counter changes. -/
theorem set_speed_inhibit_time (s : State) (req : usbRequest) (wpm inhibit_time : Nat)
    (hw : 1 ≤ wpm ∧ wpm ≤ 255) (hi : inhibit_time ≤ 255)
    (hreq : req.bRequest = Request.SPEED)
    (hdir : req.bmRequestType &&& USBRQ_DIR_MASK = USBRQ_DIR_HOST_TO_DEVICE)
    (hval : req.wValue = wpm + 256 * inhibit_time) :
    ∃ s', set_speed wpm inhibit_time s = .ok s' ∧
      usbFunctionSetup req s = .ok (s', 0) ∧
      s'.config.speed = wpm ∧
      s'.config.speed_unit = 1200 / wpm % 256 ∧
      (s'.config.speed_unit ≤ inhibit_time → s'.config.inhibit_time = 0) ∧
      (inhibit_time < s'.config.speed_unit → s'.config.inhibit_time = inhibit_time) ∧
      s' = { s with config := { s.config with speed := s'.config.speed,
                                              speed_unit := s'.config.speed_unit,
                                              inhibit_time := s'.config.inhibit_time },
                    request_save_config := (s.request_save_config + 1) % 256 } := by
  have hw0 : wpm ≠ 0 := by omega
  have h1 : req.wValue % 256 = wpm := by omega
  have h2 : req.wValue / 256 % 256 = inhibit_time := by omega
  refine ⟨_, by simp only [set_speed, if_neg hw0]; rfl, ?_, rfl, rfl, ?_, ?_, rfl⟩
  · simp only [usbFunctionSetup, hreq, hdir, h1, h2, set_speed, if_neg hw0]
    rfl
  · intro h
    dsimp only at h ⊢
    rw [if_neg (by omega)]
  · intro h
    dsimp only at h ⊢
    rw [if_pos h]

/-- Witness of C2 at four inputs: the default `set_speed(20, 20)` (unit 60, the
given 20 is kept), `set_speed(20, 60)` (the given value equals the unit: 0 is
stored), `set_speed(255, 4)` (unit 4: 0 is stored) and `set_speed(1, 175)` (unit
176: the given 175 is kept). -/
theorem set_speed_inhibit_time_witness :
    (∃ s', set_speed 20 20 boot = .ok s' ∧
      usbFunctionSetup
        { bmRequestType := 0x40, bRequest := Request.SPEED, wValue := 20 + 256 * 20,
          wIndex := 0, wLength := 0 } boot = .ok (s', 0) ∧
      s'.config.speed = 20 ∧ s'.config.speed_unit = 60 ∧ s'.config.inhibit_time = 20) ∧
    (∃ s', set_speed 20 60 boot = .ok s' ∧
      usbFunctionSetup
        { bmRequestType := 0x40, bRequest := Request.SPEED, wValue := 20 + 256 * 60,
          wIndex := 0, wLength := 0 } boot = .ok (s', 0) ∧
      s'.config.speed = 20 ∧ s'.config.speed_unit = 60 ∧ s'.config.inhibit_time = 0) ∧
    (∃ s', set_speed 255 4 boot = .ok s' ∧
      s'.config.speed = 255 ∧ s'.config.speed_unit = 4 ∧ s'.config.inhibit_time = 0) ∧
    (∃ s', set_speed 1 175 boot = .ok s' ∧
      s'.config.speed = 1 ∧ s'.config.speed_unit = 176 ∧ s'.config.inhibit_time = 175) := by
  refine ⟨?_, ?_, ?_, ?_⟩
  · obtain ⟨s', h1, h2, h3, h4, _, h6, _⟩ := set_speed_inhibit_time boot
      { bmRequestType := 0x40, bRequest := Request.SPEED, wValue := 20 + 256 * 20,
        wIndex := 0, wLength := 0 } 20 20 (by decide) (by decide) rfl (by decide) rfl
    exact ⟨s', h1, h2, h3, h4, h6 (lt_of_lt_of_eq (by decide) h4.symm)⟩
  · obtain ⟨s', h1, h2, h3, h4, h5, _, _⟩ := set_speed_inhibit_time boot
      { bmRequestType := 0x40, bRequest := Request.SPEED, wValue := 20 + 256 * 60,
        wIndex := 0, wLength := 0 } 20 60 (by decide) (by decide) rfl (by decide) rfl
    exact ⟨s', h1, h2, h3, h4, h5 (le_of_eq_of_le h4 (by decide))⟩
  · obtain ⟨s', h1, _, h3, h4, h5, _, _⟩ := set_speed_inhibit_time boot
      { bmRequestType := 0x40, bRequest := Request.SPEED, wValue := 255 + 256 * 4,
        wIndex := 0, wLength := 0 } 255 4 (by decide) (by decide) rfl (by decide) rfl
    exact ⟨s', h1, h3, h4, h5 (le_of_eq_of_le h4 (by decide))⟩
  · obtain ⟨s', h1, _, h3, h4, _, h6, _⟩ := set_speed_inhibit_time boot
      { bmRequestType := 0x40, bRequest := Request.SPEED, wValue := 1 + 256 * 175,
        wIndex := 0, wLength := 0 } 1 175 (by decide) (by decide) rfl (by decide) rfl
    exact ⟨s', h1, h3, h4, h6 (lt_of_lt_of_eq (by decide) h4.symm)⟩

/-- C3, the code at the failing input: with Inbound empty (128 cells free) and a
declared length of 256 the setup stores `bytesRemaining = 0`, where
`min 256 (128 - 0)` is 128. -/
theorem usbFunctionSetup_send_length_256 :
    usbFunctionSetup
        { bmRequestType := 0x40, bRequest := Request.SEND, wValue := 0, wIndex := 0,
          wLength := 256 } boot = .ok ({ boot with bytesRemaining := 0 }, USB_NO_MSG) ∧
    min 256 (boot.recv_buffer.capacity - boot.recv_buffer.size) = 128 :=
  ⟨rfl, by decide⟩

/-- What the host-to-device `SEND` setup stores for any declared length and any
queue within its capacity: the declared length modulo 256, capped by the free
space. Up to a declared length of 255 this is the minimum of the two. -/
theorem usbFunctionSetup_send_bytesRemaining (s : State) (req : usbRequest)
    (hreq : req.bRequest = Request.SEND)
    (hdir : req.bmRequestType &&& USBRQ_DIR_MASK = USBRQ_DIR_HOST_TO_DEVICE)
    (hsize : s.recv_buffer.size ≤ s.recv_buffer.capacity)
    (hcap : s.recv_buffer.capacity ≤ 255) :
    usbFunctionSetup req s = .ok
      ({ s with
          bytesRemaining :=
            min (req.wLength % 256) (s.recv_buffer.capacity - s.recv_buffer.size) },
        USB_NO_MSG) := by
  simp only [usbFunctionSetup, hreq, hdir]
  have : (if ((s.recv_buffer.capacity : Int) - (s.recv_buffer.size : Int))
            < ((req.wLength % 256 : Nat) : Int)
          then (((s.recv_buffer.capacity : Int) - (s.recv_buffer.size : Int)) % 256).toNat
          else req.wLength % 256)
        = min (req.wLength % 256) (s.recv_buffer.capacity - s.recv_buffer.size) := by
    split_ifs with h <;> omega
  rw [this]
  simp

/-- C4, the code at the failing input: from power-on the host declares a `SEND`
of 13 bytes and delivers the first 8 with token 75, which leaves 5 bytes
expected (return value 0); the host resends that chunk with token 75. The resend
is discarded, the call returns 1 and `bytesRemaining` is still 5. -/
theorem usbFunctionWrite_duplicate_returns_1 :
    ∃ s1, usbFunctionSetup
        { bmRequestType := 0x40, bRequest := Request.SEND, wValue := 0, wIndex := 0,
          wLength := 13 } boot = .ok (s1, USB_NO_MSG) ∧
      (usbFunctionWrite s1 75 [1, 2, 3, 4, 5, 6, 7, 8]).2 = 0 ∧
      (usbFunctionWrite s1 75 [1, 2, 3, 4, 5, 6, 7, 8]).1.bytesRemaining = 5 ∧
      (usbFunctionWrite (usbFunctionWrite s1 75 [1, 2, 3, 4, 5, 6, 7, 8]).1 75
        [1, 2, 3, 4, 5, 6, 7, 8]).2 = 1 ∧
      (usbFunctionWrite (usbFunctionWrite s1 75 [1, 2, 3, 4, 5, 6, 7, 8]).1 75
        [1, 2, 3, 4, 5, 6, 7, 8]).1.bytesRemaining = 5 :=
  ⟨{ boot with bytesRemaining := 13 }, rfl, by decide, by decide, by decide, by decide⟩

/-- On the path that accepts the chunk (the token differs from the stored one) the
return value 1 does mean that nothing remains. -/
theorem usbFunctionWrite_accepted_returns_1 (s : State) (token : Nat) (data : List Nat)
    (htok : s.usbPrevDataToken ≠ token) (h : (usbFunctionWrite s token data).2 = 1) :
    (usbFunctionWrite s token data).1.bytesRemaining = 0 := by
  unfold usbFunctionWrite at h ⊢
  by_cases h2 : ((if data.length > s.bytesRemaining then data.length
      else s.bytesRemaining) - data.length) % 256 = 0
  · simp [htok, h2]
  · simp [htok, h2] at h

/-! ## Dot/dash sequences: packing and reading back -/

theorem bit_played (x i : Nat) : decide ((x >>> i) &&& 1 ≠ 0) = x.testBit i := by
  simp only [Nat.testBit, Nat.land_comm 1, bne, ne_eq, decide_not]
  congr 1

theorem played_bits_eq (x i : Nat) : played_bits x i = bits_desc x (i + 1) := by
  induction i with
  | zero => rw [played_bits, bit_played]; rfl
  | succ i ih => rw [played_bits, ih, bit_played]; rfl

theorem bits_desc_low (k x b m : Nat) (hb : b < 2 ^ k) (hm : m ≤ k) :
    bits_desc (2 ^ k * x + b) m = bits_desc b m := by
  induction m with
  | zero => rfl
  | succ m ih =>
    rw [bits_desc, bits_desc, ih (by omega), Nat.testBit_mul_pow_two_add x hb,
      if_pos (by omega)]

theorem bits_desc_shift (k x b n : Nat) (hb : b < 2 ^ k) :
    bits_desc (2 ^ k * x + b) (n + k) = bits_desc x n ++ bits_desc b k := by
  induction n with
  | zero => simpa [bits_desc] using bits_desc_low k x b k hb (Nat.le_refl k)
  | succ n ih =>
    rw [show n + 1 + k = (n + k) + 1 by omega, bits_desc, ih,
      Nat.testBit_mul_pow_two_add x hb, if_neg (by omega), Nat.add_sub_cancel]
    rfl

theorem key_dot_eq (x : Nat) (h : 2 ^ 2 * x + 1 < 2 ^ 32) : key_dot x = 2 ^ 2 * x + 1 := by
  rw [key_dot, Nat.shiftLeft_eq, Nat.mul_comm, ← Nat.mul_add_lt_is_or (by decide),
    Nat.mod_eq_of_lt h]

theorem key_dash_eq (x : Nat) (h : 2 ^ 4 * x + 7 < 2 ^ 32) : key_dash x = 2 ^ 4 * x + 7 := by
  rw [key_dash, Nat.shiftLeft_eq, Nat.mul_comm, ← Nat.mul_add_lt_is_or (by decide),
    Nat.mod_eq_of_lt h]

theorem packed_width_append (seq : List Element) (e : Element) :
    packed_width (seq ++ [e]) = packed_width seq + e.width := by
  simp [packed_width]

theorem encode_append (seq : List Element) (e : Element) :
    encode (seq ++ [e]) = key_element (encode seq) e := by
  simp [encode]

/-- A sequence that fits in 32 bits is packed without loss: the sign is below
`2 ^ width` and its bits are the groups of the elements, first element highest. -/
theorem encode_bits (seq : List Element) (h : packed_width seq ≤ 32) :
    encode seq < 2 ^ packed_width seq ∧
      bits_desc (encode seq) (packed_width seq) = (seq.map Element.group).flatten := by
  induction seq using List.reverseRecOn with
  | nil => exact ⟨by decide, rfl⟩
  | append_singleton seq e ih =>
    rw [packed_width_append] at h ⊢
    obtain ⟨hlt, hbits⟩ := ih (by omega)
    have hpow : 2 ^ (packed_width seq + e.width) ≤ 2 ^ 32 := Nat.pow_le_pow_right (by decide) h
    rw [encode_append, List.map_append, List.flatten_append]
    cases e with
    | dot =>
      have hw : Element.dot.width = 2 := rfl
      rw [hw] at hpow ⊢
      have hb : 2 ^ 2 * encode seq + 1 < 2 ^ (packed_width seq + 2) := by
        rw [Nat.pow_add]; omega
      rw [key_element, key_dot_eq _ (by omega)]
      refine ⟨hb, ?_⟩
      rw [bits_desc_shift 2 _ 1 _ (by decide), hbits]
      rfl
    | dash =>
      have hw : Element.dash.width = 4 := rfl
      rw [hw] at hpow ⊢
      have hb : 2 ^ 4 * encode seq + 7 < 2 ^ (packed_width seq + 4) := by
        rw [Nat.pow_add]; omega
      rw [key_element, key_dash_eq _ (by omega)]
      refine ⟨hb, ?_⟩
      rw [bits_desc_shift 4 _ 7 _ (by decide), hbits]
      rfl

theorem nlz_below_top (x m j : Nat) (hm : x.testBit m = true)
    (hz : ∀ i, m < i → i < m + 1 + j → x.testBit i = false) :
    nlz_below x (m + 1 + j) = j := by
  induction j with
  | zero => simp [nlz_below, hm]
  | succ j ih =>
    rw [show m + 1 + (j + 1) = (m + 1 + j) + 1 by omega, nlz_below,
      hz (m + 1 + j) (by omega) (by omega), ih (fun i h1 h2 => hz i h1 (by omega))]
    simp

theorem group_flatten_cons (e : Element) (rest : List Element) :
    ∃ bs, ((e :: rest).map Element.group).flatten = false :: true :: bs := by
  cases e <;> exact ⟨_, rfl⟩

/-- For a non-empty sequence that fits in 32 bits, `current_bit` of
`send_morse_code` is the packed width less one. -/
theorem current_bit_encode (seq : List Element) (hne : seq ≠ [])
    (h : packed_width seq ≤ 32) :
    32 - NLZ (encode seq) = packed_width seq - 1 := by
  obtain ⟨hlt, hbits⟩ := encode_bits seq h
  obtain ⟨e, rest, rfl⟩ : ∃ e rest, seq = e :: rest := by
    cases seq with
    | nil => exact absurd rfl hne
    | cons e rest => exact ⟨e, rest, rfl⟩
  obtain ⟨bs, hbs⟩ := group_flatten_cons e rest
  have hw2 : 2 ≤ packed_width (e :: rest) := by
    cases e <;> simp [packed_width, Element.width]
    omega
  obtain ⟨w, hw⟩ : ∃ w, packed_width (e :: rest) = w + 2 :=
    ⟨packed_width (e :: rest) - 2, by omega⟩
  rw [hw] at hlt hbits h ⊢
  rw [hbs, bits_desc, bits_desc] at hbits
  have h1 : (encode (e :: rest)).testBit (w + 1) = false := by
    have := List.cons_eq_cons.mp hbits
    exact this.1
  have h2 : (encode (e :: rest)).testBit w = true := by
    have := List.cons_eq_cons.mp (List.cons_eq_cons.mp hbits).2
    exact this.1
  have hn : NLZ (encode (e :: rest)) = 31 - w := by
    rw [NLZ, show 32 = w + 1 + (31 - w) by omega]
    apply nlz_below_top _ _ _ h2
    intro i hi1 hi2
    by_cases hi : i = w + 1
    · rw [hi]; exact h1
    · apply Nat.testBit_lt_two_pow
      exact Nat.lt_of_lt_of_le hlt (Nat.pow_le_pow_right (by decide) (by omega))
  rw [hn]
  omega

/-- The units `send_morse_code` plays for the sign of a non-empty sequence that
fits in 32 bits: the groups of its elements in order, then three units off. -/
theorem played_units_encode (seq : List Element) (hne : seq ≠ [])
    (h : packed_width seq ≤ 32) :
    played_units (encode seq) = (seq.map Element.group).flatten ++ [false, false, false] := by
  have hw : 1 ≤ packed_width seq := by
    cases seq with
    | nil => exact absurd rfl hne
    | cons e rest => cases e <;> simp [packed_width, Element.width] <;> omega
  rw [played_units, current_bit_encode seq hne h, played_bits_eq,
    show packed_width seq - 1 + 1 = packed_width seq by omega, (encode_bits seq h).2]

theorem decode_units_tone (k : Nat) (us : List Bool) (run : Nat) :
    decode_units (List.replicate k true ++ us) run = decode_units us (run + k) := by
  induction k generalizing run with
  | zero => rfl
  | succ k ih =>
    rw [List.replicate_succ, List.cons_append, decode_units, ih]
    congr 1
    omega

theorem decode_units_groups (seq : List Element) (tail : List Bool) :
    decode_units ((seq.map Element.group).flatten ++ false :: tail) 0
      = (decode_units tail 0).map (fun es => seq ++ es) := by
  induction seq with
  | nil => simp [decode_units]
  | cons e rest ih =>
    obtain ⟨us, hus⟩ : ∃ us, (rest.map Element.group).flatten ++ false :: tail
        = false :: us := by
      cases rest with
      | nil => exact ⟨tail, rfl⟩
      | cons e2 rest2 =>
        obtain ⟨bs, hbs⟩ := group_flatten_cons e2 rest2
        exact ⟨true :: bs ++ false :: tail, by rw [hbs]; rfl⟩
    have ih2 : decode_units us 0 = (decode_units tail 0).map (fun es => rest ++ es) := by
      rw [← ih, hus, decode_units]
    rw [List.map_cons, List.flatten_cons, Element.group, List.cons_append, List.cons_append,
      List.append_assoc, decode_units, decode_units_tone, hus]
    cases e with
    | dot =>
      show decode_units (false :: us) 1 = _
      rw [decode_units, ih2]
      simp only [classify_run, Option.bind]
      cases decode_units tail 0 <;> simp
    | dash =>
      show decode_units (false :: us) 3 = _
      rw [decode_units, ih2]
      simp only [classify_run, Option.bind]
      cases decode_units tail 0 <;> simp

/-- C7, amended to what the 32-bit sign holds: for every sequence of dots and
dashes whose packed width (2 bits per dot, 4 per dash) is at most 32, reading
the elements back from the sign built by the keying appends, in the order
`send_morse_code` plays them, gives the sequence. -/
theorem decode_encode (seq : List Element) (h : packed_width seq ≤ 32) :
    decode (encode seq) = some seq := by
  by_cases hne : seq = []
  · rw [hne]; decide
  · rw [decode, played_units_encode seq hne h, decode_units_groups]
    simp [decode_units]

/-- C7 as stated fails at nine dashes, a sequence of length 9 ≤ 16: the ninth
append shifts the first dash out of the 32-bit sign, which stays `0x77777777`,
and eight dashes are read back. -/
theorem decode_encode_nine_dashes :
    (List.replicate 9 Element.dash).length ≤ 16 ∧
    encode (List.replicate 9 Element.dash) = 0x77777777 ∧
    decode (encode (List.replicate 9 Element.dash)) = some (List.replicate 8 Element.dash) ∧
    decode (encode (List.replicate 9 Element.dash)) ≠ some (List.replicate 9 Element.dash) := by
  decide

/-- Witness of the amended C7 at the sequence dot, dash. -/
theorem decode_encode_witness :
    decode (encode [Element.dot, Element.dash]) = some [Element.dot, Element.dash] :=
  decode_encode [Element.dot, Element.dash] (by decide)

/-! ## Waiting and playback -/

/-- With no request or chunk delivered, `process_usb` returns and leaves the
configuration, the clock and the keying line as they are. -/
theorem process_usb_keeps (env : Env) (s : State) (h : env.usb s.polls = none) :
    ∃ s', process_usb env s = .ok s' ∧ s'.config = s.config ∧ s'.output = s.output ∧
      s'.wave = s.wave ∧ s'.timer = s.timer := by
  unfold process_usb
  rw [h]
  simp only [usbPoll, Except.bind]
  by_cases hr : env.ready s.polls = true
  · rw [if_pos hr]
    obtain ⟨s1, n, h1, h2⟩ := getInterruptData_loop_frame 7 1
      { s with polls := s.polls + 1,
               buffer := s.buffer.set 0 s.recv_buffer.size }
    have h1' : getInterruptData { s with polls := s.polls + 1 } = .ok (s1, n) := h1
    rw [h1']
    simp only [Except.map]
    by_cases hn : n > 0
    · rw [if_pos hn]
      exact ⟨_, rfl, by rw [h2], by rw [h2], by rw [h2], by rw [h2]⟩
    · rw [if_neg hn]
      exact ⟨_, rfl, by rw [h2], by rw [h2], by rw [h2], by rw [h2]⟩
  · rw [if_neg hr]
    exact ⟨_, rfl, rfl, rfl, rfl, rfl⟩

theorem delay_loop_keeps (env : Env) (hq : ∀ p, env.usb p = none) (end_ fuel : Nat)
    (s : State) (h : s.timer + fuel = end_) (he : end_ < 65536) :
    ∃ s', delay_loop env end_ fuel s = .ok s' ∧ s'.config = s.config ∧
      s'.output = s.output ∧ s'.wave = s.wave ++ List.replicate fuel s.output := by
  induction fuel generalizing s with
  | zero =>
    refine ⟨s, ?_, rfl, rfl, by simp⟩
    rw [delay_loop, if_neg (by omega)]
  | succ fuel ih =>
    obtain ⟨s1, h1, hc, ho, hw, ht⟩ := process_usb_keeps env s (hq _)
    obtain ⟨s2, h2, hc2, ho2, hw2⟩ := ih (ISR env s1) (by
      show (s1.timer + 1) % 65536 + fuel = end_
      rw [ht, Nat.mod_eq_of_lt (by omega)]
      omega)
    refine ⟨s2, ?_, ?_, ?_, ?_⟩
    · rw [delay_loop, if_pos (by omega), h1]
      exact h2
    · rw [hc2]; exact hc
    · rw [ho2]; exact ho
    · rw [hw2]
      show (s1.wave ++ [s1.output]) ++ List.replicate fuel s1.output = _
      rw [hw, ho, List.replicate_succ]
      simp

/-- With no request or chunk delivered, `delay_ms t` returns after `t` ticks:
the keying line keeps its level for `t` more ticks. -/
theorem delay_ms_keeps (env : Env) (hq : ∀ p, env.usb p = none) (t : Nat) (s : State) :
    ∃ s', delay_ms env t s = .ok s' ∧ s'.config = s.config ∧ s'.output = s.output ∧
      s'.wave = s.wave ++ List.replicate (t % 65536) s.output := by
  have hlt : t % 65536 < 65536 := Nat.mod_lt _ (by decide)
  obtain ⟨s', h1, h2, h3, h4⟩ := delay_loop_keeps env hq ((0 + t % 65536) % 65536)
    (t % 65536) { s with timer := 0 }
    (by show 0 + t % 65536 = _; rw [Nat.zero_add, Nat.mod_eq_of_lt hlt])
    (Nat.mod_lt _ (by decide))
  refine ⟨s', ?_, h2, h3, h4⟩
  rw [← h1, delay_ms]
  simp only [Nat.zero_add, Nat.mod_mod]

theorem replicate_three (u : Nat) (b : Bool) :
    List.replicate (u * 3) b
      = List.replicate u b ++ (List.replicate u b ++ (List.replicate u b ++ [])) := by
  rw [show u * 3 = u + (u + u) by omega, List.replicate_add, List.replicate_add,
    List.append_nil]

theorem send_morse_code_loop_wave (env : Env) (hq : ∀ p, env.usb p = none)
    (current_sign i : Nat) (s : State) :
    ∃ s', send_morse_code_loop env current_sign i s = .ok s' ∧ s'.config = s.config ∧
      s'.wave = s.wave ++
        ((played_bits current_sign i).map
          (List.replicate (s.config.speed_unit % 65536))).flatten := by
  have hbit : ∀ (j : Nat) (s : State),
      ∃ s', send_morse_code_bit env current_sign j s = .ok s' ∧ s'.config = s.config ∧
        s'.wave = s.wave ++ List.replicate (s.config.speed_unit % 65536)
          (decide ((current_sign >>> j) &&& 1 ≠ 0)) := by
    intro j s
    unfold send_morse_code_bit
    by_cases hb : (current_sign >>> j) &&& 1 ≠ 0
    · rw [if_pos hb, decide_eq_true hb]
      obtain ⟨s', h1, h2, _, h4⟩ := delay_ms_keeps env hq (start_output s).config.speed_unit
        (start_output s)
      exact ⟨s', h1, h2, h4⟩
    · rw [if_neg hb, decide_eq_false hb]
      obtain ⟨s', h1, h2, _, h4⟩ := delay_ms_keeps env hq (stop_output s).config.speed_unit
        (stop_output s)
      exact ⟨s', h1, h2, h4⟩
  induction i generalizing s with
  | zero =>
    obtain ⟨s', h1, h2, h3⟩ := hbit 0 s
    exact ⟨s', h1, h2, by rw [h3]; simp [played_bits]⟩
  | succ i ih =>
    obtain ⟨s1, h1, h2, h3⟩ := hbit (i + 1) s
    obtain ⟨s2, h4, h5, h6⟩ := ih s1
    refine ⟨s2, ?_, by rw [h5, h2], ?_⟩
    · rw [send_morse_code_loop, h1]
      exact h4
    · rw [h6, h3, h2, played_bits]
      simp

/-- The keying line under `send_morse_code` for any sign: each played unit lasts
`speed_unit` ticks. -/
theorem send_morse_code_wave (env : Env) (hq : ∀ p, env.usb p = none)
    (current_sign : Nat) (s : State) (hu : s.config.speed_unit < 256) :
    ∃ s', send_morse_code env current_sign s = .ok s' ∧ s'.config = s.config ∧
      s'.wave = s.wave ++
        ((played_units current_sign).map (List.replicate s.config.speed_unit)).flatten := by
  obtain ⟨s1, h1, h2, h3⟩ := send_morse_code_loop_wave env hq current_sign
    (32 - NLZ current_sign) s
  obtain ⟨s2, h4, h5, _, h7⟩ := delay_ms_keeps env hq ((stop_output s1).config.speed_unit * 3)
    (stop_output s1)
  refine ⟨s2, ?_, by rw [h5]; exact h2, ?_⟩
  · rw [send_morse_code, h1]
    exact h4
  · rw [h7]
    show s1.wave ++ List.replicate (s1.config.speed_unit * 3 % 65536) false = _
    rw [h3, h2, Nat.mod_eq_of_lt (by omega : s.config.speed_unit < 65536),
      Nat.mod_eq_of_lt (by omega : s.config.speed_unit * 3 < 65536), played_units]
    rw [List.map_append, List.flatten_append, List.append_assoc, replicate_three]
    rfl

theorem tone_wave (k u : Nat) (b : Bool) :
    ((List.replicate k b).map (List.replicate u)).flatten = List.replicate (k * u) b := by
  induction k with
  | zero => simp
  | succ k ih =>
    rw [List.replicate_succ, List.map_cons, List.flatten_cons, ih, Nat.succ_mul,
      Nat.add_comm (k * u) u, List.replicate_add]

theorem group_wave (u : Nat) (seq : List Element) :
    (((seq.map Element.group).flatten ++ [false, false, false]).map (List.replicate u)).flatten
      = played_wave u seq := by
  rw [played_wave, List.map_append, List.flatten_append]
  congr 1
  · induction seq with
    | nil => rfl
    | cons e rest ih =>
      rw [List.map_cons, List.flatten_cons, List.map_append, List.flatten_append, ih,
        List.map_cons, List.flatten_cons, Element.group, List.map_cons, List.flatten_cons,
        tone_wave]
  · rw [Nat.mul_comm, replicate_three]
    rfl

/-- C8, amended to the order the code plays: for every non-empty dot/dash
sequence whose PackedSign fits in 32 bits, with no host request delivered
meanwhile, `send_morse_code` on that sign returns and drives the keying line, in
ticks of `speed_unit` per unit, as: for each element in order, inactive for 1
unit and then active for 1 unit (dot) or 3 units (dash); then inactive for 3
units after the last element. -/
theorem send_morse_code_played (env : Env) (hq : ∀ p, env.usb p = none)
    (seq : List Element) (hne : seq ≠ []) (hfit : packed_width seq ≤ 32) (s : State)
    (hu : s.config.speed_unit < 256) :
    ∃ s', send_morse_code env (encode seq) s = .ok s' ∧
      s'.wave = s.wave ++ played_wave s.config.speed_unit seq := by
  obtain ⟨s', h1, _, h3⟩ := send_morse_code_wave env hq (encode seq) s hu
  exact ⟨s', h1, by rw [h3, played_units_encode seq hne hfit, group_wave]⟩

/-- Witness of the amended C8: the sign of dot, dash played from the power-on
state with nothing on the link. -/
theorem send_morse_code_played_witness :
    ∃ s', send_morse_code quiet (encode [Element.dot, Element.dash]) boot = .ok s' ∧
      s'.wave = boot.wave ++ played_wave boot.config.speed_unit [Element.dot, Element.dash] :=
  send_morse_code_played quiet (fun _ => rfl) [Element.dot, Element.dash] (by decide)
    (by decide) boot (by decide)

set_option maxRecDepth 100000 in
/-- C8 as stated fails for a single dot at 60 ticks per unit: the line is
inactive for the first 60 ticks, active for the next 60 and inactive for the
last 180, where the spec's wording has it active for the first 60 ticks and
inactive for the following 240. -/
theorem send_morse_code_single_dot :
    ∃ s', send_morse_code quiet (encode [Element.dot]) boot = .ok s' ∧
      s'.wave = List.replicate 60 false ++ List.replicate 60 true ++ List.replicate 180 false ∧
      s'.wave ≠ boot.wave ++ worded_wave boot.config.speed_unit [Element.dot] := by
  obtain ⟨s', h1, _, h3⟩ := send_morse_code_wave quiet (fun _ => rfl) (encode [Element.dot])
    boot (by decide)
  have hw : s'.wave
      = List.replicate 60 false ++ List.replicate 60 true ++ List.replicate 180 false := by
    rw [h3]
    decide
  refine ⟨s', h1, hw, ?_⟩
  rw [hw]
  decide

/-! ## The main loop with nothing on the paddles and the link -/

theorem process_usb_quiet (s : State) :
    process_usb quiet s = .ok { s with polls := s.polls + 1 } := rfl

theorem delay_loop_quiet (end_ fuel : Nat) (s : State) (h : s.timer + fuel = end_)
    (he : end_ < 65536) :
    ∃ s', delay_loop quiet end_ fuel s = .ok s' ∧ s'.clockless = s.clockless := by
  induction fuel generalizing s with
  | zero => exact ⟨s, by rw [delay_loop, if_neg (by omega)], rfl⟩
  | succ fuel ih =>
    obtain ⟨s2, h2, h3⟩ := ih (ISR quiet { s with polls := s.polls + 1 }) (by
      show (s.timer + 1) % 65536 + fuel = end_
      rw [Nat.mod_eq_of_lt (by omega)]
      omega)
    refine ⟨s2, ?_, ?_⟩
    · rw [delay_loop, if_pos (by omega), process_usb_quiet]
      exact h2
    · rw [h3]
      rfl

/-- With nothing on the paddles and the link, a wait returns and moves the clock
only. -/
theorem delay_ms_quiet (t : Nat) (s : State) :
    ∃ s', delay_ms quiet t s = .ok s' ∧ s'.clockless = s.clockless := by
  have hlt : t % 65536 < 65536 := Nat.mod_lt _ (by decide)
  obtain ⟨s', h1, h2⟩ := delay_loop_quiet ((0 + t % 65536) % 65536) (t % 65536)
    { s with timer := 0 }
    (by show 0 + t % 65536 = _; rw [Nat.zero_add, Nat.mod_eq_of_lt hlt])
    (Nat.mod_lt _ (by decide))
  refine ⟨s', ?_, by rw [h2]; rfl⟩
  rw [← h1, delay_ms]
  simp only [Nat.zero_add, Nat.mod_mod]

/-- The dot branch with nothing on the paddles and the link afterwards: Inbound
is cleared, the dot is appended to the sign, the latch is cleared and the gap
timer restarts at 1. -/
theorem dot_step_quiet (s : State) (h : s.dot_keying ≠ 0) :
    ∃ s', dot_step quiet s = .ok s' ∧ s'.keying_timer = 1 ∧
      s'.clockless = State.clockless
        { s with
          recv_buffer := ringbuffer_clear s.recv_buffer, sending := 1,
          current_sign := key_dot s.current_sign, output := false, dot_keying := 0 } := by
  obtain ⟨s2, h2, e2⟩ := delay_ms_quiet s.config.speed_unit
    (start_output { s with
      recv_buffer := ringbuffer_clear s.recv_buffer, sending := 1,
      current_sign := key_dot s.current_sign })
  obtain ⟨s3, h3, e3⟩ := delay_ms_quiet s2.config.inhibit_time (stop_output s2)
  obtain ⟨s5, h5, e5⟩ := delay_ms_quiet
    (((s3.config.speed_unit : Int) - (s3.config.inhibit_time : Int)) % 65536).toNat
    { s3 with dot_keying := 0 }
  refine ⟨{ s5 with keying_timer := 1 }, ?_, rfl, ?_⟩
  · rw [dot_step, if_pos h]
    simp only [Except.bind]
    rw [h2]
    simp only
    rw [h3]
    simp only
    rw [h5]
  · have e5' : s5.clockless = { s3.clockless with dot_keying := 0 } := e5
    have e3' : s3.clockless = { s2.clockless with output := false } := e3
    show s5.clockless = _
    rw [e5', e3', e2]
    rfl

theorem gap_step_recv_buffer (s : State) : (gap_step s).recv_buffer = s.recv_buffer := by
  unfold gap_step
  split_ifs <;> rfl

theorem gap_step_space (s : State) (ht : s.config.speed_unit * 6 < s.keying_timer)
    (hs : s.sending = 0) :
    gap_step s
      = { s with keying_timer := 0, send_buffer := ringbuffer_put s.send_buffer 0x20 } := by
  rw [gap_step, if_pos ⟨ht, hs⟩]

theorem gap_step_flush (s : State) (ht : s.config.speed_unit * 2 < s.keying_timer)
    (hs : s.sending ≠ 0) :
    gap_step s
      = { s with
          send_buffer := flush_loop s.current_sign (ringbuffer_put s.send_buffer 0xff),
          sending := 0, current_sign := 0 } := by
  rw [gap_step, if_neg (fun h => hs h.2), if_pos ht, if_pos hs]

theorem gap_step_idle (s : State)
    (h1 : ¬ (s.config.speed_unit * 6 < s.keying_timer ∧ s.sending = 0))
    (h2 : ¬ (s.config.speed_unit * 2 < s.keying_timer ∧ s.sending ≠ 0)) :
    gap_step s = s := by
  rw [gap_step, if_neg h1]
  by_cases ht : s.config.speed_unit * 2 < s.keying_timer
  · rw [if_pos ht, if_neg (fun hs => h2 ⟨ht, hs⟩)]
  · rw [if_neg ht]

theorem save_step_same (env : Env) (s : State) :
    save_step env s
      = { s with
          eeprom := (save_step env s).eeprom,
          request_save_config := (save_step env s).request_save_config } := by
  unfold save_step
  split_ifs <;> rfl

theorem loop_body_idle (MORSE_CODES : Nat → Nat) (fuel : Nat) (s : State)
    (hdot : s.dot_keying = 0) (hdash : s.dash_keying = 0) (hrecv : s.recv_buffer.size = 0) :
    (dot_step quiet s).bind (fun s2 =>
      (dash_step quiet s2).bind (fun s3 =>
        (inbound_step MORSE_CODES quiet fuel (gap_step s3)).map (save_step quiet)))
      = .ok (save_step quiet (gap_step s)) := by
  have hin : inbound_step MORSE_CODES quiet fuel (gap_step s) = .ok (gap_step s) := by
    rw [inbound_step, if_neg]
    rw [gap_step_recv_buffer]
    omega
  rw [dot_step, if_neg (fun h => h hdot)]
  simp only [Except.bind]
  rw [dash_step, if_neg (fun h => h hdash)]
  simp only [hin, Except.map]

/-- With nothing latched from the paddles, nothing in Inbound and nothing on the
link, an iteration of the main loop is the gap step followed by the write-back. -/
theorem main_iter_idle (MORSE_CODES : Nat → Nat) (fuel : Nat) (s : State)
    (hdot : s.dot_keying = 0) (hdash : s.dash_keying = 0) (hrecv : s.recv_buffer.size = 0) :
    main_iter MORSE_CODES quiet fuel s
      = .ok (save_step quiet (gap_step { s with polls := s.polls + 1 })) := by
  rw [main_iter, process_usb_quiet]
  exact loop_body_idle MORSE_CODES fuel { s with polls := s.polls + 1 } hdot hdash hrecv

/-- An idle iteration with nothing pending: the word space is put exactly when
the gap timer is above six units, and then the timer is reset. -/
theorem main_iter_silence (MORSE_CODES : Nat → Nat) (fuel : Nat) (s : State)
    (hs : s.sending = 0) (hdot : s.dot_keying = 0) (hdash : s.dash_keying = 0)
    (hrecv : s.recv_buffer.size = 0) :
    ∃ s1, main_iter MORSE_CODES quiet fuel s = .ok s1 ∧ s1.config = s.config ∧
      s1.sending = 0 ∧ s1.dot_keying = 0 ∧ s1.dash_keying = 0 ∧ s1.recv_buffer.size = 0 ∧
      (s.config.speed_unit * 6 < s.keying_timer →
        s1.send_buffer = ringbuffer_put s.send_buffer 0x20 ∧ s1.keying_timer = 0) ∧
      (¬ s.config.speed_unit * 6 < s.keying_timer →
        s1.send_buffer = s.send_buffer ∧ s1.keying_timer = s.keying_timer) := by
  refine ⟨_, main_iter_idle MORSE_CODES fuel s hdot hdash hrecv, ?_⟩
  rw [save_step_same]
  by_cases ht : s.config.speed_unit * 6 < s.keying_timer
  · rw [gap_step_space { s with polls := s.polls + 1 } ht hs]
    exact ⟨rfl, hs, hdot, hdash, hrecv, fun _ => ⟨rfl, rfl⟩, fun h => absurd ht h⟩
  · rw [gap_step_idle { s with polls := s.polls + 1 } (fun h => ht h.1) (fun h => h.2 hs)]
    exact ⟨rfl, hs, hdot, hdash, hrecv, fun h => absurd h ht, fun _ => ⟨rfl, rfl⟩⟩

/-- Once the gap timer is 0 it stays 0 and nothing more is put into Outbound,
whatever the schedule. -/
theorem run_timer_stopped (MORSE_CODES : Nat → Nat) (fuel : Nat) (es : List Event)
    (s : State) (hk : s.keying_timer = 0)
    (hs : s.sending = 0) (hdot : s.dot_keying = 0) (hdash : s.dash_keying = 0)
    (hrecv : s.recv_buffer.size = 0) :
    ∃ s', run MORSE_CODES quiet fuel es s = .ok s' ∧ s'.send_buffer = s.send_buffer ∧
      s'.keying_timer = 0 := by
  induction es generalizing s with
  | nil => exact ⟨s, rfl, rfl, hk⟩
  | cons e es ih =>
    cases e with
    | tick =>
      obtain ⟨s', h1, h2, h3⟩ := ih (ISR quiet s)
        (by show (if s.keying_timer ≠ 0 then _ else s.keying_timer) = 0
            rw [if_neg (fun h => h hk)]; exact hk)
        hs hdot hdash hrecv
      exact ⟨s', h1, h2, h3⟩
    | loop =>
      obtain ⟨s1, h1, _, hs1, hd1, hda1, hr1, _, hno⟩ :=
        main_iter_silence MORSE_CODES fuel s hs hdot hdash hrecv
      obtain ⟨hsend, hkt⟩ := hno (by rw [hk]; omega)
      obtain ⟨s', h2, h3, h4⟩ := ih s1 (by rw [hkt, hk]) hs1 hd1 hda1 hr1
      refine ⟨s', ?_, by rw [h3, hsend], h4⟩
      rw [run, h1]
      exact h2

/-- Along any schedule of ticks and iterations during a silence with nothing
pending: if some iteration starts with the gap timer above six units, Outbound
ends with exactly one more `0x20` and the gap timer at 0; if none does, Outbound
is unchanged. -/
theorem run_silence (MORSE_CODES : Nat → Nat) (fuel : Nat) (es : List Event) (s : State)
    (hs : s.sending = 0) (hdot : s.dot_keying = 0) (hdash : s.dash_keying = 0)
    (hrecv : s.recv_buffer.size = 0) :
    ∃ s', run MORSE_CODES quiet fuel es s = .ok s' ∧
      ((∃ es1 es2 s1, es = es1 ++ Event.loop :: es2 ∧
          run MORSE_CODES quiet fuel es1 s = .ok s1 ∧
          s.config.speed_unit * 6 < s1.keying_timer) →
        s'.send_buffer = ringbuffer_put s.send_buffer 0x20 ∧ s'.keying_timer = 0) ∧
      ((¬ ∃ es1 es2 s1, es = es1 ++ Event.loop :: es2 ∧
          run MORSE_CODES quiet fuel es1 s = .ok s1 ∧
          s.config.speed_unit * 6 < s1.keying_timer) →
        s'.send_buffer = s.send_buffer) := by
  induction es generalizing s with
  | nil =>
    refine ⟨s, rfl, ?_, fun _ => rfl⟩
    rintro ⟨es1, es2, s1, h, _⟩
    cases es1 <;> simp at h
  | cons e es ih =>
    cases e with
    | tick =>
      obtain ⟨s', h1, h2, h3⟩ := ih (ISR quiet s) hs hdot hdash hrecv
      have hiff : (∃ es1 es2 s1, Event.tick :: es = es1 ++ Event.loop :: es2 ∧
            run MORSE_CODES quiet fuel es1 s = .ok s1 ∧
            s.config.speed_unit * 6 < s1.keying_timer) ↔
          (∃ es1 es2 s1, es = es1 ++ Event.loop :: es2 ∧
            run MORSE_CODES quiet fuel es1 (ISR quiet s) = .ok s1 ∧
            (ISR quiet s).config.speed_unit * 6 < s1.keying_timer) := by
        constructor
        · rintro ⟨es1, es2, s1, h, hr, hk⟩
          cases es1 with
          | nil => simp at h
          | cons e1 es1 =>
            obtain ⟨rfl, rfl⟩ := List.cons_eq_cons.mp h
            exact ⟨es1, es2, s1, rfl, hr, hk⟩
        · rintro ⟨es1, es2, s1, h, hr, hk⟩
          exact ⟨Event.tick :: es1, es2, s1, by rw [h]; rfl, hr, hk⟩
      exact ⟨s', h1, fun h => h2 (hiff.mp h), fun h => h3 (fun h' => h (hiff.mpr h'))⟩
    | loop =>
      obtain ⟨s1, h1, hc, hs1, hd1, hda1, hr1, hyes, hno⟩ :=
        main_iter_silence MORSE_CODES fuel s hs hdot hdash hrecv
      by_cases ht : s.config.speed_unit * 6 < s.keying_timer
      · obtain ⟨hsend, hkt⟩ := hyes ht
        obtain ⟨s', h2, h3, h4⟩ := run_timer_stopped MORSE_CODES fuel es s1 hkt hs1 hd1 hda1 hr1
        refine ⟨s', by rw [run, h1]; exact h2, fun _ => ⟨by rw [h3, hsend], h4⟩, fun h => ?_⟩
        exact absurd ⟨[], es, s, rfl, rfl, ht⟩ h
      · obtain ⟨hsend, hkt⟩ := hno ht
        obtain ⟨s', h2, h3, h4⟩ := ih s1 hs1 hd1 hda1 hr1
        have hiff : (∃ es1 es2 s2, Event.loop :: es = es1 ++ Event.loop :: es2 ∧
              run MORSE_CODES quiet fuel es1 s = .ok s2 ∧
              s.config.speed_unit * 6 < s2.keying_timer) ↔
            (∃ es1 es2 s2, es = es1 ++ Event.loop :: es2 ∧
              run MORSE_CODES quiet fuel es1 s1 = .ok s2 ∧
              s1.config.speed_unit * 6 < s2.keying_timer) := by
          constructor
          · rintro ⟨es1, es2, s2, h, hr, hk⟩
            cases es1 with
            | nil =>
              rw [run] at hr
              cases hr
              exact absurd hk ht
            | cons e1 es1 =>
              obtain ⟨rfl, rfl⟩ := List.cons_eq_cons.mp h
              rw [run, h1] at hr
              exact ⟨es1, es2, s2, rfl, hr, by rw [hc]; exact hk⟩
          · rintro ⟨es1, es2, s2, h, hr, hk⟩
            refine ⟨Event.loop :: es1, es2, s2, by rw [h]; rfl, ?_, by rw [← hc]; exact hk⟩
            rw [run, h1]
            exact hr
        refine ⟨s', by rw [run, h1]; exact h2, fun h => ?_, fun h => ?_⟩
        · obtain ⟨h5, h6⟩ := h3 (hiff.mp h)
          exact ⟨by rw [h5, hsend], h6⟩
        · rw [h4 (fun h' => h (hiff.mpr h')), hsend]

/-- Ticks alone, with the gap timer running and nothing on the paddles: the
timer advances by one per tick. -/
theorem run_ticks (MORSE_CODES : Nat → Nat) (fuel : Nat) (T : Nat) (s : State)
    (hk : 1 ≤ s.keying_timer) (hT : s.keying_timer + T < 65536) :
    ∃ s1, run MORSE_CODES quiet fuel (List.replicate T Event.tick) s = .ok s1 ∧
      s1.keying_timer = s.keying_timer + T := by
  induction T generalizing s with
  | zero => exact ⟨s, rfl, rfl⟩
  | succ T ih =>
    have hisr : (ISR quiet s).keying_timer = s.keying_timer + 1 := by
      show (if s.keying_timer ≠ 0 then (s.keying_timer + 1) % 65536 else s.keying_timer) = _
      rw [if_pos (by omega), Nat.mod_eq_of_lt (by omega)]
    obtain ⟨s1, h1, h2⟩ := ih (ISR quiet s) (by omega) (by omega)
    exact ⟨s1, h1, by rw [h2, hisr]; omega⟩

/-- C6: starting with the gap timer running, nothing pending, nothing latched
from the paddles and nothing on the link, along every schedule of ticks and
main-loop iterations: if some iteration starts with the gap timer above
`6 * speed_unit`, Outbound ends with exactly one `0x20` put and the gap timer at
0, whatever follows; if none does, nothing is put. In particular `T` ticks that
take the running timer above `6 * speed_unit` followed by an iteration give the
one `0x20`, and no later tick or iteration adds a second. -/
theorem word_space_once (MORSE_CODES : Nat → Nat) (fuel : Nat) (es : List Event) (s : State)
    (hk : 1 ≤ s.keying_timer) (hs : s.sending = 0) (hdot : s.dot_keying = 0)
    (hdash : s.dash_keying = 0) (hrecv : s.recv_buffer.size = 0) :
    ∃ s', run MORSE_CODES quiet fuel es s = .ok s' ∧
      ((∃ es1 es2 s1, es = es1 ++ Event.loop :: es2 ∧
          run MORSE_CODES quiet fuel es1 s = .ok s1 ∧
          s.config.speed_unit * 6 < s1.keying_timer) →
        s'.send_buffer = ringbuffer_put s.send_buffer 0x20 ∧ s'.keying_timer = 0) ∧
      ((¬ ∃ es1 es2 s1, es = es1 ++ Event.loop :: es2 ∧
          run MORSE_CODES quiet fuel es1 s = .ok s1 ∧
          s.config.speed_unit * 6 < s1.keying_timer) →
        s'.send_buffer = s.send_buffer) ∧
      (∀ T es2, es = List.replicate T Event.tick ++ Event.loop :: es2 →
        s.keying_timer + T < 65536 → s.config.speed_unit * 6 < s.keying_timer + T →
        s'.send_buffer = ringbuffer_put s.send_buffer 0x20 ∧ s'.keying_timer = 0) := by
  obtain ⟨s', h1, h2, h3⟩ := run_silence MORSE_CODES fuel es s hs hdot hdash hrecv
  refine ⟨s', h1, h2, h3, ?_⟩
  intro T es2 hes hT hgap
  obtain ⟨s1, h4, h5⟩ := run_ticks MORSE_CODES fuel T s hk hT
  exact h2 ⟨_, es2, s1, hes, h4, by rw [h5]; exact hgap⟩

/-- Witness of C6: from power-on with the gap timer at 360 (six units of 60), one
tick and an iteration put the `0x20`; a further tick and iteration add nothing. -/
theorem word_space_once_witness :
    ∃ s', run (fun _ => 0) quiet 0 [Event.tick, Event.loop, Event.tick, Event.loop]
        { boot with keying_timer := 360 } = .ok s' ∧
      s'.send_buffer = ringbuffer_put boot.send_buffer 0x20 ∧ s'.keying_timer = 0 :=
  (word_space_once (fun _ => 0) 0 [Event.tick, Event.loop, Event.tick, Event.loop]
    { boot with keying_timer := 360 } (by decide) rfl rfl rfl rfl).imp
    (fun _ h => ⟨h.1, h.2.2.2 1 [Event.tick, Event.loop] rfl (by decide) (by decide)⟩)

/-! ## Flushing a keyed sign -/

theorem byte_of_sign (x k : Nat) : (x >>> k) &&& 0xff = x / 2 ^ k % 256 := by
  rw [Nat.shiftRight_eq_div_pow]
  exact Nat.and_pow_two_sub_one_eq_mod _ 8

/-- The flush loop puts the four bytes of the sign, most significant first. -/
theorem flush_loop_bytes (x : Nat) (q : ringbuffer) :
    flush_loop x (ringbuffer_put q 0xff)
      = ringbuffer_puts q [0xFF, x / 2 ^ 24 % 256, x / 2 ^ 16 % 256, x / 2 ^ 8 % 256, x % 256] := by
  simp only [flush_loop, ringbuffer_puts, List.foldl_cons, List.foldl_nil, byte_of_sign]
  norm_num

/-- An idle iteration while the gap timer is at most six units: a pending sign is
flushed exactly when the timer is above two units; the timer keeps running. -/
theorem main_iter_gap (MORSE_CODES : Nat → Nat) (fuel : Nat) (s : State)
    (hdot : s.dot_keying = 0) (hdash : s.dash_keying = 0) (hrecv : s.recv_buffer.size = 0)
    (ht : ¬ s.config.speed_unit * 6 < s.keying_timer) :
    ∃ s1, main_iter MORSE_CODES quiet fuel s = .ok s1 ∧ s1.config = s.config ∧
      s1.dot_keying = 0 ∧ s1.dash_keying = 0 ∧ s1.recv_buffer.size = 0 ∧
      s1.keying_timer = s.keying_timer ∧
      (s.sending ≠ 0 → s.config.speed_unit * 2 < s.keying_timer →
        s1.sending = 0 ∧ s1.current_sign = 0 ∧
        s1.send_buffer = flush_loop s.current_sign (ringbuffer_put s.send_buffer 0xff)) ∧
      (¬ (s.config.speed_unit * 2 < s.keying_timer ∧ s.sending ≠ 0) →
        s1.sending = s.sending ∧ s1.current_sign = s.current_sign ∧
        s1.send_buffer = s.send_buffer) := by
  refine ⟨_, main_iter_idle MORSE_CODES fuel s hdot hdash hrecv, ?_⟩
  rw [save_step_same]
  by_cases hf : s.config.speed_unit * 2 < s.keying_timer ∧ s.sending ≠ 0
  · rw [gap_step_flush { s with polls := s.polls + 1 } hf.1 hf.2]
    exact ⟨rfl, hdot, hdash, hrecv, rfl, fun _ _ => ⟨rfl, rfl, rfl⟩, fun h => absurd hf h⟩
  · rw [gap_step_idle { s with polls := s.polls + 1 } (fun h => ht h.1) hf]
    exact ⟨rfl, hdot, hdash, hrecv, rfl, fun h1 h2 => absurd ⟨h2, h1⟩ hf,
      fun _ => ⟨rfl, rfl, rfl⟩⟩

/-- After a keyed dot, through a silence that keeps the gap timer at most six
units: the sign stays pending until an iteration flushes it, and once flushed
nothing more is put. -/
theorem run_after_dot (MORSE_CODES : Nat → Nat) (fuel : Nat) (es : List Event) (s : State)
    (k : Nat) (q0 : ringbuffer) (sign : Nat) (hu : s.config.speed_unit ≤ 255)
    (hdot : s.dot_keying = 0) (hdash : s.dash_keying = 0) (hrecv : s.recv_buffer.size = 0)
    (hkt : s.keying_timer = 1 + k)
    (hst : (s.sending = 1 ∧ s.current_sign = sign ∧ s.send_buffer = q0) ∨
      (s.sending = 0 ∧ s.current_sign = 0 ∧
        s.send_buffer = flush_loop sign (ringbuffer_put q0 0xff)))
    (hT : k + es.count Event.tick < 6 * s.config.speed_unit) :
    ∃ s', run MORSE_CODES quiet fuel es s = .ok s' ∧ s'.config = s.config ∧
      s'.dot_keying = 0 ∧ s'.dash_keying = 0 ∧ s'.recv_buffer.size = 0 ∧
      s'.keying_timer = 1 + (k + es.count Event.tick) ∧
      ((s'.sending = 1 ∧ s'.current_sign = sign ∧ s'.send_buffer = q0) ∨
        (s'.sending = 0 ∧ s'.current_sign = 0 ∧
          s'.send_buffer = flush_loop sign (ringbuffer_put q0 0xff))) := by
  induction es generalizing s k with
  | nil => exact ⟨s, rfl, rfl, hdot, hdash, hrecv, by simpa using hkt, hst⟩
  | cons e es ih =>
    cases e with
    | tick =>
      rw [List.count_cons_self] at hT ⊢
      have hisr : (ISR quiet s).keying_timer = 1 + (k + 1) := by
        show (if s.keying_timer ≠ 0 then (s.keying_timer + 1) % 65536 else s.keying_timer) = _
        rw [if_pos (by omega), Nat.mod_eq_of_lt (by omega)]
        omega
      obtain ⟨s', h1, h2, h3, h4, h5, h6, h7⟩ := ih (ISR quiet s) (k + 1) hu hdot hdash hrecv
        hisr hst (by show k + 1 + _ < 6 * s.config.speed_unit; omega)
      exact ⟨s', h1, h2, h3, h4, h5, by rw [h6]; omega, h7⟩
    | loop =>
      rw [List.count_cons_of_ne (by decide)] at hT ⊢
      obtain ⟨s1, h1, hc, hd1, hda1, hr1, hk1, hyes, hno⟩ :=
        main_iter_gap MORSE_CODES fuel s hdot hdash hrecv (by omega)
      have hst1 : (s1.sending = 1 ∧ s1.current_sign = sign ∧ s1.send_buffer = q0) ∨
          (s1.sending = 0 ∧ s1.current_sign = 0 ∧
            s1.send_buffer = flush_loop sign (ringbuffer_put q0 0xff)) := by
        by_cases hf : s.config.speed_unit * 2 < s.keying_timer ∧ s.sending ≠ 0
        · obtain ⟨a, b, c⟩ := hyes hf.2 hf.1
          rcases hst with ⟨_, hsg, hq⟩ | ⟨h0, _, _⟩
          · exact Or.inr ⟨a, b, by rw [c, hsg, hq]⟩
          · exact absurd h0 hf.2
        · obtain ⟨a, b, c⟩ := hno hf
          rw [a, b, c]
          exact hst
      obtain ⟨s', h2, h3, h4, h5, h6, h7, h8⟩ := ih s1 k (by rw [hc]; exact hu) hd1 hda1 hr1
        (by rw [hk1, hkt]) hst1 (by rw [hc]; exact hT)
      exact ⟨s', by rw [run, h1]; exact h2, by rw [h3, hc], h4, h5, h6, h7, h8⟩

/-- The iteration that takes a latched dot, with nothing on the link: afterwards
the sign holds the appended dot and is pending, the gap timer is at 1, Inbound
is empty and Outbound untouched. -/
theorem main_iter_dot (MORSE_CODES : Nat → Nat) (fuel : Nat) (s : State)
    (hdot : s.dot_keying ≠ 0) (hdash : s.dash_keying = 0) (hu : 1 ≤ s.config.speed_unit) :
    ∃ s1, main_iter MORSE_CODES quiet fuel s = .ok s1 ∧ s1.config = s.config ∧
      s1.dot_keying = 0 ∧ s1.dash_keying = 0 ∧ s1.recv_buffer.size = 0 ∧
      s1.keying_timer = 1 ∧ s1.sending = 1 ∧ s1.current_sign = key_dot s.current_sign ∧
      s1.send_buffer = s.send_buffer := by
  obtain ⟨sd, h1, hk, e⟩ := dot_step_quiet { s with polls := s.polls + 1 } hdot
  have hcfg : sd.config = s.config := by
    have h := congrArg State.config e; exact h
  have hdk : sd.dot_keying = 0 := by
    have h := congrArg State.dot_keying e; exact h
  have hdak : sd.dash_keying = 0 := by
    have h := congrArg State.dash_keying e; exact h.trans hdash
  have hrv : sd.recv_buffer = ringbuffer_clear s.recv_buffer := by
    have h := congrArg State.recv_buffer e; exact h
  have hsd : sd.sending = 1 := by
    have h := congrArg State.sending e; exact h
  have hsg : sd.current_sign = key_dot s.current_sign := by
    have h := congrArg State.current_sign e; exact h
  have hsb : sd.send_buffer = s.send_buffer := by
    have h := congrArg State.send_buffer e; exact h
  have hgap : gap_step sd = sd :=
    gap_step_idle sd (fun h => by rw [hsd] at h; exact absurd h.2 (by decide))
      (fun h => by rw [hk, hcfg] at h; omega)
  have hin : inbound_step MORSE_CODES quiet fuel sd = .ok sd := by
    rw [inbound_step, if_neg]
    rw [hrv]
    show ¬ 0 > 0
    omega
  refine ⟨save_step quiet sd, ?_, ?_⟩
  · rw [main_iter, process_usb_quiet]
    simp only [Except.bind]
    rw [h1]
    simp only
    rw [dash_step, if_neg (fun h => h hdak)]
    simp only [hgap, hin, Except.map]
  · rw [save_step_same]
    exact ⟨hcfg, hdk, hdak, by rw [hrv]; rfl, hk, hsd, hsg, hsb⟩

/-- C5: for every state with a sign pending and the gap timer above
`2 * speed_unit`, the gap step puts into Outbound exactly the five bytes `0xFF`,
`s[31:24]`, `s[23:16]`, `s[15:8]`, `s[7:0]` in that order (they are appended to
its content when it is well formed and has room for them) and resets the
pending sign to 0 and the pending flag. In particular, from a latched dot with
an empty sign and nothing on the link: the keying iteration, then any schedule
of ticks and iterations whose tick count takes the gap timer above two and not
above six units, then an iteration, leave the Outbound content extended by
`[0xFF, 0x00, 0x00, 0x00, 0x01]` and by nothing else, with no sign pending. -/
theorem gap_flush_and_single_dot :
    (∀ s : State, s.sending ≠ 0 → s.config.speed_unit * 2 < s.keying_timer →
      gap_step s
        = { s with
            send_buffer := ringbuffer_puts s.send_buffer
              [0xFF, s.current_sign / 2 ^ 24 % 256, s.current_sign / 2 ^ 16 % 256,
                s.current_sign / 2 ^ 8 % 256, s.current_sign % 256],
            sending := 0, current_sign := 0 } ∧
      (s.send_buffer.wf → s.send_buffer.size + 5 ≤ s.send_buffer.capacity →
        (gap_step s).send_buffer.contents = s.send_buffer.contents ++
          [0xFF, s.current_sign / 2 ^ 24 % 256, s.current_sign / 2 ^ 16 % 256,
            s.current_sign / 2 ^ 8 % 256, s.current_sign % 256])) ∧
    (∀ (MORSE_CODES : Nat → Nat) (fuel : Nat) (s : State) (es : List Event),
      s.dot_keying ≠ 0 → s.dash_keying = 0 → s.current_sign = 0 →
      1 ≤ s.config.speed_unit → s.config.speed_unit ≤ 255 →
      s.send_buffer.wf → s.send_buffer.size + 5 ≤ s.send_buffer.capacity →
      2 * s.config.speed_unit ≤ es.count Event.tick →
      es.count Event.tick < 6 * s.config.speed_unit →
      ∃ s', run MORSE_CODES quiet fuel (Event.loop :: es ++ [Event.loop]) s = .ok s' ∧
        s'.send_buffer.contents = s.send_buffer.contents ++ [0xFF, 0x00, 0x00, 0x00, 0x01] ∧
        s'.sending = 0 ∧ s'.current_sign = 0) := by
  constructor
  · intro s hs ht
    have hg := gap_step_flush s ht hs
    rw [flush_loop_bytes] at hg
    refine ⟨hg, fun hwf hroom => ?_⟩
    rw [hg]
    exact (ringbuffer_puts_contents
      [0xFF, s.current_sign / 2 ^ 24 % 256, s.current_sign / 2 ^ 16 % 256,
        s.current_sign / 2 ^ 8 % 256, s.current_sign % 256] s.send_buffer hwf hroom).1
  · intro MORSE_CODES fuel s es hdot hdash hsign hu1 hu2 hwf hroom hlo hhi
    obtain ⟨s1, h1, hc, hd1, hda1, hr1, hk1, hsd1, hsg1, hsb1⟩ :=
      main_iter_dot MORSE_CODES fuel s hdot hdash hu1
    rw [hsign] at hsg1
    obtain ⟨s2, h2, hc2, hd2, hda2, hr2, hk2, hst2⟩ :=
      run_after_dot MORSE_CODES fuel es s1 0 s.send_buffer (key_dot 0) (by rw [hc]; exact hu2)
        hd1 hda1 hr1 hk1 (Or.inl ⟨hsd1, hsg1, hsb1⟩) (by rw [hc]; omega)
    obtain ⟨s3, h3, _, _, _, _, _, hyes, hno⟩ :=
      main_iter_gap MORSE_CODES fuel s2 hd2 hda2 hr2 (by rw [hc2, hc, hk2]; omega)
    have hfin : s3.sending = 0 ∧ s3.current_sign = 0 ∧
        s3.send_buffer = flush_loop (key_dot 0) (ringbuffer_put s.send_buffer 0xff) := by
      rcases hst2 with ⟨a, b, c⟩ | ⟨a, b, c⟩
      · obtain ⟨x, y, z⟩ := hyes (by rw [a]; decide) (by rw [hc2, hc, hk2]; omega)
        exact ⟨x, y, by rw [z, b, c]⟩
      · obtain ⟨x, y, z⟩ := hno (fun h => h.2 a)
        exact ⟨by rw [x, a], by rw [y, b], by rw [z, c]⟩
    refine ⟨s3, ?_, ?_, hfin.1, hfin.2.1⟩
    · rw [List.cons_append, run, h1]
      simp only [Except.bind]
      have happ : ∀ (xs : List Event) (a b : State),
          run MORSE_CODES quiet fuel xs a = .ok b →
          run MORSE_CODES quiet fuel (xs ++ [Event.loop]) a
            = main_iter MORSE_CODES quiet fuel b := by
        intro xs
        induction xs with
        | nil =>
          intro a b hab
          cases hab
          rw [List.nil_append, run]
          cases main_iter MORSE_CODES quiet fuel a <;> rfl
        | cons x xs ih =>
          intro a b hab
          cases x with
          | tick => exact ih _ _ hab
          | loop =>
            rw [run] at hab
            rw [List.cons_append, run]
            cases hm : main_iter MORSE_CODES quiet fuel a with
            | error err => rw [hm] at hab; cases hab
            | ok v => rw [hm] at hab; exact ih _ _ hab
      rw [happ es s1 s2 h2, h3]
    · have hq : flush_loop (key_dot 0) (ringbuffer_put s.send_buffer 0xff)
          = ringbuffer_puts s.send_buffer [0xFF, 0x00, 0x00, 0x00, 0x01] := rfl
      rw [hfin.2.2, hq]
      exact (ringbuffer_puts_contents [0xFF, 0x00, 0x00, 0x00, 0x01] s.send_buffer hwf
        hroom).1

set_option maxRecDepth 100000 in
/-- Witness of C5: a pending sign `0x01020304` is flushed as
`[0xFF, 1, 2, 3, 4]`; and a dot latched at power-on (unit 60), keyed, followed
by 120 ticks of silence and an iteration, leaves `[0xFF, 0, 0, 0, 1]` in
Outbound. -/
theorem gap_flush_and_single_dot_witness :
    (gap_step { boot with sending := 1, current_sign := 0x01020304, keying_timer := 121 }).send_buffer.contents
        = [0xFF, 1, 2, 3, 4] ∧
    ∃ s', run (fun _ => 0) quiet 0
        (Event.loop :: List.replicate 120 Event.tick ++ [Event.loop])
        { boot with dot_keying := 1 } = .ok s' ∧
      s'.send_buffer.contents = [0xFF, 0x00, 0x00, 0x00, 0x01] ∧
      s'.sending = 0 ∧ s'.current_sign = 0 :=
  ⟨(gap_flush_and_single_dot.1
      { boot with sending := 1, current_sign := 0x01020304, keying_timer := 121 }
      (by decide) (by decide)).2 (by decide) (by decide),
    gap_flush_and_single_dot.2 (fun _ => 0) 0 { boot with dot_keying := 1 }
      (List.replicate 120 Event.tick) (by decide) rfl rfl (by decide) (by decide)
      (by decide) (by decide) (by decide) (by decide)⟩

/-! ## Config setters, the dirty counter and the chunk counter -/

/-- C11 as stated fails at speed 1: the quotient 1200 does not fit the 8-bit
`speed_unit`, which holds 176. -/
theorem set_speed_unit_speed_1 :
    ∃ s', usbFunctionSetup
        { bmRequestType := 0x40, bRequest := Request.SPEED, wValue := 1, wIndex := 0,
          wLength := 0 } boot = .ok (s', 0) ∧
      s'.config.speed = 1 ∧ s'.config.speed_unit = 176 ∧ s'.config.speed_unit ≠ 1200 / 1 :=
  ⟨_, rfl, rfl, rfl, by decide⟩

/-- The stored unit for any speed from 1 on: the quotient modulo 256. -/
theorem set_speed_unit_mod (s : State) (wpm inhibit_time : Nat) (hw : 1 ≤ wpm) :
    ∃ s', set_speed wpm inhibit_time s = .ok s' ∧ s'.config.speed = wpm ∧
      s'.config.speed_unit = 1200 / wpm % 256 := by
  refine ⟨_, by rw [set_speed, if_neg (by omega)], rfl, rfl⟩

/-- C11, amended to the speeds whose unit fits 8 bits: for every speed in 5..255
(and any inhibit_time byte), after `set_speed`, and after the host-to-device
`SPEED` request carrying them, the stored `speed_unit` is `1200 / speed`. -/
theorem set_speed_unit (s : State) (req : usbRequest) (speed inhibit_time : Nat)
    (hw : 5 ≤ speed ∧ speed ≤ 255) (hi : inhibit_time ≤ 255)
    (hreq : req.bRequest = Request.SPEED)
    (hdir : req.bmRequestType &&& USBRQ_DIR_MASK = USBRQ_DIR_HOST_TO_DEVICE)
    (hval : req.wValue = speed + 256 * inhibit_time) :
    ∃ s', set_speed speed inhibit_time s = .ok s' ∧ usbFunctionSetup req s = .ok (s', 0) ∧
      s'.config.speed = speed ∧ s'.config.speed_unit = 1200 / speed := by
  have hw0 : speed ≠ 0 := by omega
  have h1 : req.wValue % 256 = speed := by omega
  have h2 : req.wValue / 256 % 256 = inhibit_time := by omega
  have hlt : 1200 / speed < 256 := (Nat.div_lt_iff_lt_mul (by omega)).mpr (by omega)
  refine ⟨_, by simp only [set_speed, if_neg hw0]; rfl, ?_, rfl, Nat.mod_eq_of_lt hlt⟩
  simp only [usbFunctionSetup, hreq, hdir, h1, h2, set_speed, if_neg hw0]
  rfl

/-- Witness of the amended C11 at speed 20: the unit is 60. -/
theorem set_speed_unit_witness :
    ∃ s', set_speed 20 20 boot = .ok s' ∧
      usbFunctionSetup
        { bmRequestType := 0x40, bRequest := Request.SPEED, wValue := 20 + 256 * 20,
          wIndex := 0, wLength := 0 } boot = .ok (s', 0) ∧
      s'.config.speed = 20 ∧ s'.config.speed_unit = 60 :=
  set_speed_unit boot _ 20 20 (by decide) (by decide) rfl (by decide) rfl

/-- C13, the code at the failing input: a host-to-device `SPEED` request whose
first byte (wpm) is 0 and second byte (inhibit_time) is 20. `set_speed` stores
speed 0 and divides 1200 by it: the handler has no result. -/
theorem set_speed_wpm_0 :
    usbFunctionSetup
        { bmRequestType := 0x40, bRequest := Request.SPEED, wValue := 0 + 256 * 20,
          wIndex := 0, wLength := 0 } boot = .error Fault.DivisionByZero ∧
      set_speed 0 20 boot = .error Fault.DivisionByZero :=
  ⟨rfl, rfl⟩

/-- The stored 8-bit unit is never 0 for a speed in 1..255. -/
theorem speed_unit_pos (wpm : Nat) (h1 : 1 ≤ wpm) (h2 : wpm ≤ 255) :
    1 ≤ 1200 / wpm % 256 := by
  by_cases h5 : 5 ≤ wpm
  · have hlt : 1200 / wpm < 256 := (Nat.div_lt_iff_lt_mul (by omega)).mpr (by omega)
    have hge : 4 ≤ 1200 / wpm := (Nat.le_div_iff_mul_le (by omega)).mpr (by omega)
    rw [Nat.mod_eq_of_lt hlt]
    omega
  · interval_cases wpm <;> decide

/-- C14: for every wpm in 1..255 and inhibit_time in 0..255, `set_speed` returns a
state whose Config has `inhibit_time < speed_unit` with the stored 8-bit
`speed_unit` between 1 and 255, so the post-element wait
`speed_unit - inhibit_time` of the keying branches, computed in `int` and passed
as `uint16_t`, is positive and is passed unchanged. -/
theorem set_speed_invariant (s : State) (wpm inhibit_time : Nat)
    (hw : 1 ≤ wpm ∧ wpm ≤ 255) (hi : inhibit_time ≤ 255) :
    ∃ s', set_speed wpm inhibit_time s = .ok s' ∧
      s'.config.inhibit_time < s'.config.speed_unit ∧
      1 ≤ s'.config.speed_unit ∧ s'.config.speed_unit ≤ 255 ∧
      0 < (s'.config.speed_unit : Int) - (s'.config.inhibit_time : Int) ∧
      (((s'.config.speed_unit : Int) - (s'.config.inhibit_time : Int)) % 65536).toNat
        = s'.config.speed_unit - s'.config.inhibit_time := by
  have hpos := speed_unit_pos wpm hw.1 hw.2
  have hlt : 1200 / wpm % 256 < 256 := Nat.mod_lt _ (by decide)
  refine ⟨_, by rw [set_speed, if_neg (by omega)], ?_⟩
  dsimp only
  by_cases h : inhibit_time < 1200 / wpm % 256
  · rw [if_pos h]
    refine ⟨h, hpos, by omega, by omega, by omega⟩
  · rw [if_neg h]
    refine ⟨by omega, hpos, by omega, by omega, by omega⟩

/-- Witness of C14 at wpm 20 with the out-of-range inhibit time 200. -/
theorem set_speed_invariant_witness :
    ∃ s', set_speed 20 200 boot = .ok s' ∧
      s'.config.inhibit_time < s'.config.speed_unit ∧
      1 ≤ s'.config.speed_unit ∧ s'.config.speed_unit ≤ 255 ∧
      0 < (s'.config.speed_unit : Int) - (s'.config.inhibit_time : Int) ∧
      (((s'.config.speed_unit : Int) - (s'.config.inhibit_time : Int)) % 65536).toNat
        = s'.config.speed_unit - s'.config.inhibit_time :=
  set_speed_invariant boot 20 200 (by decide) (by decide)

/-- A host-to-device `SPEED` or `TONE` request adds one to the 8-bit dirty
counter: the counter is nonzero afterwards unless it was 255. -/
theorem save_request_counter (s : State) (req : usbRequest)
    (hdir : req.bmRequestType &&& USBRQ_DIR_MASK = USBRQ_DIR_HOST_TO_DEVICE)
    (hreq : req.bRequest = Request.TONE ∨
      (req.bRequest = Request.SPEED ∧ req.wValue % 256 ≠ 0)) :
    ∃ s', usbFunctionSetup req s = .ok (s', 0) ∧
      s'.request_save_config = (s.request_save_config + 1) % 256 := by
  rcases hreq with h | ⟨h, hw⟩
  · exact ⟨_, by simp only [usbFunctionSetup, h, hdir]; rfl, rfl⟩
  · refine ⟨_, by simp only [usbFunctionSetup, h, hdir, set_speed, if_neg hw]; rfl, rfl⟩

/-- C12, the code at the failing input: the dirty counter stands at 255 (254 more
requests since power-on, where `set_speed` left it at 1, without a write-back in
between) and the host sets the tone to 700 or the speed to 25. The counter wraps
to 0, and the write-back of the next iteration, with the storage idle, does not
happen: the persisted blob keeps the old values. -/
theorem save_request_counter_255 :
    (∃ s', usbFunctionSetup
        { bmRequestType := 0x40, bRequest := Request.TONE, wValue := 700, wIndex := 0,
          wLength := 0 } { boot with request_save_config := 255 } = .ok (s', 0) ∧
      s'.config.tone = 700 ∧ s'.request_save_config = 0 ∧
      (save_step quiet s').eeprom = boot.eeprom ∧ (save_step quiet s').eeprom ≠ s'.config) ∧
    (∃ s', usbFunctionSetup
        { bmRequestType := 0x40, bRequest := Request.SPEED, wValue := 25 + 256 * 20,
          wIndex := 0, wLength := 0 } { boot with request_save_config := 255 } = .ok (s', 0) ∧
      s'.config.speed = 25 ∧ s'.request_save_config = 0 ∧
      (save_step quiet s').eeprom = boot.eeprom ∧ (save_step quiet s').eeprom ≠ s'.config) :=
  ⟨⟨_, rfl, rfl, rfl, rfl, by decide⟩, ⟨_, rfl, rfl, rfl, rfl, by decide⟩⟩

set_option maxRecDepth 100000 in
/-- The counter value 255 is reached: 254 `TONE` requests polled in a row from
power-on, as during a wait, where no write-back runs. -/
theorem save_request_counter_reaches_255 :
    ((List.replicate 254
        (UsbEvent.setup
          { bmRequestType := 0x40, bRequest := Request.TONE, wValue := 700, wIndex := 0,
            wLength := 0 })).foldlM (fun s ev => usbPoll (some ev) s) boot).map
      (fun s => s.request_save_config) = .ok 255 := by
  rfl

/-- C15: for every chunk whose token differs from the stored previous token (and
the `uint8_t` `bytesRemaining` below 256), `usbFunctionWrite` puts the bytes of
the chunk into Inbound in their order (they are appended to its content when it
is well formed and has room for them), sets `bytesRemaining` to
`bytesRemaining - len` when `len ≤ bytesRemaining` and to 0 otherwise, and
returns 1 exactly when the new `bytesRemaining` is 0, else 0. -/
theorem usbFunctionWrite_accepted (s : State) (token : Nat) (data : List Nat)
    (htok : s.usbPrevDataToken ≠ token) (hbr : s.bytesRemaining < 256) :
    (usbFunctionWrite s token data).1.recv_buffer = ringbuffer_puts s.recv_buffer data ∧
    (s.recv_buffer.wf → s.recv_buffer.size + data.length ≤ s.recv_buffer.capacity →
      (usbFunctionWrite s token data).1.recv_buffer.contents
        = s.recv_buffer.contents ++ data) ∧
    (data.length ≤ s.bytesRemaining →
      (usbFunctionWrite s token data).1.bytesRemaining = s.bytesRemaining - data.length) ∧
    (s.bytesRemaining < data.length → (usbFunctionWrite s token data).1.bytesRemaining = 0) ∧
    ((usbFunctionWrite s token data).2 = 1 ↔
      (usbFunctionWrite s token data).1.bytesRemaining = 0) ∧
    ((usbFunctionWrite s token data).2 = 0 ∨ (usbFunctionWrite s token data).2 = 1) := by
  have hrem : ((if data.length > s.bytesRemaining then data.length else s.bytesRemaining)
      - data.length) % 256 = s.bytesRemaining - data.length := by
    split_ifs with h <;> omega
  have hbuf : (usbFunctionWrite s token data).1.recv_buffer
      = ringbuffer_puts s.recv_buffer data := by
    unfold usbFunctionWrite
    rw [if_neg htok]
    dsimp only
    split_ifs <;> rfl
  have hval : (usbFunctionWrite s token data).1.bytesRemaining
      = s.bytesRemaining - data.length := by
    unfold usbFunctionWrite
    rw [if_neg htok]
    dsimp only
    rw [hrem]
    split_ifs <;> rfl
  have hret : (usbFunctionWrite s token data).2
      = if s.bytesRemaining - data.length ≠ 0 then 0 else 1 := by
    unfold usbFunctionWrite
    rw [if_neg htok]
    dsimp only
    rw [hrem]
    split_ifs <;> rfl
  refine ⟨hbuf, fun hwf hroom => ?_, fun _ => hval, fun h => by rw [hval]; omega, ?_, ?_⟩
  · rw [hbuf]
    exact (ringbuffer_puts_contents data s.recv_buffer hwf hroom).1
  · rw [hret, hval]
    by_cases h : s.bytesRemaining - data.length = 0 <;> simp [h]
  · rw [hret]
    split_ifs <;> simp

set_option maxRecDepth 100000 in
/-- Witness of C15: eleven bytes expected, an 8-byte chunk with a fresh token
leaves 3 expected and returns 0. -/
theorem usbFunctionWrite_accepted_witness :
    (usbFunctionWrite { boot with bytesRemaining := 11 } 75
        [1, 2, 3, 4, 5, 6, 7, 8]).1.recv_buffer.contents = [1, 2, 3, 4, 5, 6, 7, 8] ∧
    (usbFunctionWrite { boot with bytesRemaining := 11 } 75
        [1, 2, 3, 4, 5, 6, 7, 8]).1.bytesRemaining = 3 ∧
    (usbFunctionWrite { boot with bytesRemaining := 11 } 75 [1, 2, 3, 4, 5, 6, 7, 8]).2 = 0 :=
  have h := usbFunctionWrite_accepted { boot with bytesRemaining := 11 } 75
    [1, 2, 3, 4, 5, 6, 7, 8] (by decide) (by decide)
  ⟨h.2.1 (by decide) (by decide), h.2.2.1 (by decide),
    h.2.2.2.2.2.resolve_right (fun h1 => absurd (h.2.2.2.2.1.mp h1) (by decide))⟩

/-- C16 as stated fails at unit 60: with the gap timer at exactly 360 and nothing
pending the gap step puts no `0x20` and changes nothing, and with the gap timer
at exactly 120 and the sign of a dot pending it flushes nothing. -/
theorem gap_step_boundary_60 :
    gap_step { boot with keying_timer := 360 } = { boot with keying_timer := 360 } ∧
    (gap_step { boot with keying_timer := 360 }).send_buffer.contents = [] ∧
    gap_step { boot with keying_timer := 120, sending := 1, current_sign := 1 }
      = { boot with keying_timer := 120, sending := 1, current_sign := 1 } ∧
    (gap_step { boot with keying_timer := 120, sending := 1, current_sign := 1
      }).send_buffer.contents = [] := by
  decide

/-- C16, amended to the strict comparisons of the code: in the gap step, at
`keying_timer` equal to exactly `6 * speed_unit` with nothing pending no word
space is put, and at exactly `2 * speed_unit` with a sign pending the sign is not
flushed (the step changes nothing); one tick later, at `6 * speed_unit + 1` the
`0x20` is put and the timer reset, and at `2 * speed_unit + 1` the sign is
flushed. -/
theorem gap_step_boundary (s : State) :
    (s.keying_timer = s.config.speed_unit * 6 → s.sending = 0 → gap_step s = s) ∧
    (s.keying_timer = s.config.speed_unit * 2 → s.sending ≠ 0 → gap_step s = s) ∧
    (s.keying_timer = s.config.speed_unit * 6 + 1 → s.sending = 0 →
      gap_step s
        = { s with keying_timer := 0, send_buffer := ringbuffer_put s.send_buffer 0x20 }) ∧
    (s.keying_timer = s.config.speed_unit * 2 + 1 → s.sending ≠ 0 →
      gap_step s
        = { s with
            send_buffer := ringbuffer_puts s.send_buffer
              [0xFF, s.current_sign / 2 ^ 24 % 256, s.current_sign / 2 ^ 16 % 256,
                s.current_sign / 2 ^ 8 % 256, s.current_sign % 256],
            sending := 0, current_sign := 0 }) := by
  refine ⟨fun hk hs => ?_, fun hk hs => ?_, fun hk hs => ?_, fun hk hs => ?_⟩
  · exact gap_step_idle s (fun h => by omega) (fun h => h.2 hs)
  · exact gap_step_idle s (fun h => hs h.2) (fun h => by omega)
  · exact gap_step_space s (by omega) hs
  · rw [gap_step_flush s (by omega) hs, flush_loop_bytes]

set_option maxRecDepth 100000 in
/-- Witness of the amended C16 at unit 60: nothing at 360 and at 120, the word
space at 361, the flush of a pending dot at 121. -/
theorem gap_step_boundary_witness :
    gap_step { boot with keying_timer := 360 } = { boot with keying_timer := 360 } ∧
    gap_step { boot with keying_timer := 120, sending := 1, current_sign := 1 }
      = { boot with keying_timer := 120, sending := 1, current_sign := 1 } ∧
    (gap_step { boot with keying_timer := 361 }).send_buffer.contents = [0x20] ∧
    (gap_step { boot with keying_timer := 121, sending := 1, current_sign := 1
      }).send_buffer.contents = [0xFF, 0, 0, 0, 1] :=
  ⟨(gap_step_boundary { boot with keying_timer := 360 }).1 (by decide) rfl,
    (gap_step_boundary { boot with keying_timer := 120, sending := 1, current_sign := 1 }).2.1
      (by decide) (by decide),
    by rw [(gap_step_boundary { boot with keying_timer := 361 }).2.2.1 (by decide) rfl]
       decide,
    by rw [(gap_step_boundary
        { boot with keying_timer := 121, sending := 1, current_sign := 1 }).2.2.2
        (by decide) (by decide)]
       decide⟩

set_option maxRecDepth 100000 in
/-- C19, the code at the failing input: Inbound holds 125 bytes (3 cells free),
the host declares a `SEND` of 13 bytes, so 3 are accepted; the first chunk of 8
bytes arrives with token 75. All 8 bytes are put into Inbound, 5 more than were
accepted and than were free (here the 5 oldest bytes are overwritten), and the
call returns 1. -/
theorem usbFunctionWrite_chunk_over_accepted :
    ∃ s1, usbFunctionSetup
        { bmRequestType := 0x40, bRequest := Request.SEND, wValue := 0, wIndex := 0,
          wLength := 13 }
        { boot with recv_buffer := ringbuffer_puts boot.recv_buffer (List.replicate 125 0x41) }
        = .ok (s1, USB_NO_MSG) ∧
      s1.recv_buffer.capacity - s1.recv_buffer.size = 3 ∧ s1.bytesRemaining = 3 ∧
      (usbFunctionWrite s1 75 [1, 2, 3, 4, 5, 6, 7, 8]).2 = 1 ∧
      (usbFunctionWrite s1 75 [1, 2, 3, 4, 5, 6, 7, 8]).1.recv_buffer
        = ringbuffer_puts s1.recv_buffer [1, 2, 3, 4, 5, 6, 7, 8] ∧
      (usbFunctionWrite s1 75 [1, 2, 3, 4, 5, 6, 7, 8]).1.recv_buffer.overflow = 5 ∧
      (usbFunctionWrite s1 75 [1, 2, 3, 4, 5, 6, 7, 8]).1.recv_buffer.contents
        = List.replicate 120 0x41 ++ [1, 2, 3, 4, 5, 6, 7, 8] :=
  ⟨{ boot with
      recv_buffer := ringbuffer_puts boot.recv_buffer (List.replicate 125 0x41),
      bytesRemaining := 3 },
    rfl, by decide, by decide, by decide, by decide, by decide, by decide⟩

/-! ## The inbound step: echo and custom codes -/

theorem send_morse_code_bit_quiet (current_sign i : Nat) (s : State) :
    ∃ s' b, send_morse_code_bit quiet current_sign i s = .ok s' ∧
      s'.clockless = State.clockless { s with output := b } := by
  unfold send_morse_code_bit
  by_cases hb : (current_sign >>> i) &&& 1 ≠ 0
  · rw [if_pos hb]
    obtain ⟨s', h1, h2⟩ := delay_ms_quiet (start_output s).config.speed_unit (start_output s)
    exact ⟨s', true, h1, h2⟩
  · rw [if_neg hb]
    obtain ⟨s', h1, h2⟩ := delay_ms_quiet (stop_output s).config.speed_unit (stop_output s)
    exact ⟨s', false, h1, h2⟩

theorem send_morse_code_loop_quiet (current_sign i : Nat) (s : State) :
    ∃ s' b, send_morse_code_loop quiet current_sign i s = .ok s' ∧
      s'.clockless = State.clockless { s with output := b } := by
  induction i generalizing s with
  | zero => exact send_morse_code_bit_quiet current_sign 0 s
  | succ i ih =>
    obtain ⟨s1, b1, h1, e1⟩ := send_morse_code_bit_quiet current_sign (i + 1) s
    obtain ⟨s2, b2, h2, e2⟩ := ih s1
    refine ⟨s2, b2, ?_, ?_⟩
    · rw [send_morse_code_loop, h1]
      exact h2
    · have e2' : s2.clockless = { s1.clockless with output := b2 } := e2
      rw [e2', e1]
      rfl

/-- With nothing on the paddles and the link, playing a sign returns, leaves the
keying line low and moves the clock only. -/
theorem send_morse_code_quiet (current_sign : Nat) (s : State) :
    ∃ s', send_morse_code quiet current_sign s = .ok s' ∧
      s'.clockless = State.clockless { s with output := false } := by
  obtain ⟨s1, b1, h1, e1⟩ := send_morse_code_loop_quiet current_sign (32 - NLZ current_sign) s
  obtain ⟨s2, h2, e2⟩ := delay_ms_quiet ((stop_output s1).config.speed_unit * 3)
    (stop_output s1)
  refine ⟨s2, ?_, ?_⟩
  · rw [send_morse_code, h1]
    exact h2
  · have e2' : s2.clockless = { s1.clockless with output := false } := e2
    rw [e2', e1]
    rfl

/-- The read loop of the custom-code branch over any run of indices: it moves as
many bytes from Inbound to Outbound, in order, and ors each into the sign at
its index. -/
theorem custom_fold (idx : List Nat) (s : State) (hrw : s.recv_buffer.wf)
    (hsw : s.send_buffer.wf) (hn : idx.length ≤ s.recv_buffer.size)
    (hroom : s.send_buffer.size + idx.length ≤ s.send_buffer.capacity) :
    ∃ s', idx.foldlM
        (fun s i => (ringbuffer_get s.recv_buffer).map (fun r =>
          { s with recv_buffer := r.2, send_buffer := ringbuffer_put s.send_buffer r.1,
                   current_sign := (s.current_sign ||| shl_int r.1 (i * 8)) % 2 ^ 32 })) s
        = .ok s' ∧
      s'.recv_buffer.contents = s.recv_buffer.contents.drop idx.length ∧
      s'.send_buffer.contents
        = s.send_buffer.contents ++ s.recv_buffer.contents.take idx.length ∧
      s'.current_sign = (idx.zip (s.recv_buffer.contents.take idx.length)).foldl
        (fun sg p => (sg ||| shl_int p.2 (p.1 * 8)) % 2 ^ 32) s.current_sign ∧
      s'.recv_buffer.wf ∧ s'.send_buffer.wf ∧
      s' = { s with recv_buffer := s'.recv_buffer, send_buffer := s'.send_buffer,
                    current_sign := s'.current_sign } := by
  induction idx generalizing s with
  | nil => exact ⟨s, rfl, by simp, by simp, by simp, hrw, hsw, rfl⟩
  | cons i idx ih =>
    simp only [List.length_cons] at hn hroom
    obtain ⟨v, q', hget, hcont, hwf', hsz⟩ :=
      ringbuffer_get_contents s.recv_buffer hrw (by omega)
    obtain ⟨hpc, hpw, hps, hpk⟩ := ringbuffer_put_contents s.send_buffer v hsw (by omega)
    obtain ⟨s', h1, h2, h3, h4, h5, h6, h7⟩ := ih
      { s with recv_buffer := q', send_buffer := ringbuffer_put s.send_buffer v,
               current_sign := (s.current_sign ||| shl_int v (i * 8)) % 2 ^ 32 }
      hwf' hpw (by show idx.length ≤ q'.size; omega)
      (by show (ringbuffer_put s.send_buffer v).size + idx.length
            ≤ (ringbuffer_put s.send_buffer v).capacity
          omega)
    refine ⟨s', ?_, ?_, ?_, ?_, h5, h6, ?_⟩
    · rw [List.foldlM_cons, hget]
      exact h1
    · rw [h2, hcont]
      rfl
    · rw [h3, hcont]
      show (ringbuffer_put s.send_buffer v).contents ++ _ = _
      rw [hpc]
      simp
    · rw [h4, hcont]
      rfl
    · rw [h7]

theorem custom_wait_queued (env : Env) (fuel : Nat) (s : State)
    (h : 4 ≤ s.recv_buffer.size) : custom_wait env fuel s = .ok s := by
  cases fuel with
  | zero => rw [custom_wait, if_neg (by omega)]
  | succ fuel => rw [custom_wait, if_neg (by omega)]

/-- The inbound step on a space or a table character, with nothing on the link:
the byte taken from Inbound is put into Outbound and nothing else changes in
the two queues. -/
theorem inbound_step_single (MORSE_CODES : Nat → Nat) (fuel : Nat) (s : State)
    (c : Nat) (q : ringbuffer) (hsize : s.recv_buffer.size > 0)
    (hget : ringbuffer_get s.recv_buffer = .ok (c, q)) (hc : c ≠ 0xff) :
    ∃ s', inbound_step MORSE_CODES quiet fuel s = .ok s' ∧ s'.recv_buffer = q ∧
      s'.send_buffer = ringbuffer_put s.send_buffer c := by
  rw [inbound_step, if_pos hsize, hget]
  simp only [Except.bind]
  by_cases h20 : c = 0x20
  · rw [if_pos h20]
    obtain ⟨s2, h2, e2⟩ := delay_ms_quiet (s.config.speed_unit * 4)
      { s with recv_buffer := q, send_buffer := ringbuffer_put s.send_buffer c }
    rw [h2]
    refine ⟨_, rfl, ?_, ?_⟩
    · have h := congrArg State.recv_buffer e2; exact h
    · have h := congrArg State.send_buffer e2; exact h
  · rw [if_neg h20, if_neg hc]
    obtain ⟨s2, h2, e2⟩ := send_morse_code_quiet (MORSE_CODES c % 2 ^ 32)
      { s with recv_buffer := q, current_sign := MORSE_CODES c % 2 ^ 32,
               send_buffer := ringbuffer_put s.send_buffer c }
    rw [h2]
    refine ⟨_, rfl, ?_, ?_⟩
    · have h := congrArg State.recv_buffer e2; exact h
    · have h := congrArg State.send_buffer e2; exact h

/-- The inbound step on the custom-code escape with its 4 raw bytes queued and
nothing on the link: the read loop runs at once, its sign is the one handed to
`send_morse_code`, and the queues are left as the read loop leaves them. -/
theorem inbound_step_custom (MORSE_CODES : Nat → Nat) (fuel : Nat) (s : State)
    (q : ringbuffer) (hsize : s.recv_buffer.size > 0)
    (hget : ringbuffer_get s.recv_buffer = .ok (0xff, q)) (hq : 4 ≤ q.size)
    (t3 : State)
    (hloop : custom_loop
      { s with recv_buffer := q, send_buffer := ringbuffer_put s.send_buffer 0xff,
               current_sign := 0 } = .ok t3) :
    inbound_step MORSE_CODES quiet fuel s
        = (send_morse_code quiet t3.current_sign t3).map
            (fun s4 => { s4 with current_sign := 0 }) ∧
      ∃ s', inbound_step MORSE_CODES quiet fuel s = .ok s' ∧
        s'.recv_buffer = t3.recv_buffer ∧ s'.send_buffer = t3.send_buffer := by
  have hstep : inbound_step MORSE_CODES quiet fuel s
      = (send_morse_code quiet t3.current_sign t3).map
          (fun s4 => { s4 with current_sign := 0 }) := by
    rw [inbound_step, if_pos hsize, hget]
    simp only [Except.bind]
    rw [if_pos trivial, custom_wait_queued quiet fuel _ hq]
    simp only
    rw [hloop, if_neg (by decide)]
  refine ⟨hstep, ?_⟩
  obtain ⟨s2, h2, e2⟩ := send_morse_code_quiet t3.current_sign t3
  rw [hstep, h2]
  refine ⟨_, rfl, ?_, ?_⟩
  · have h := congrArg State.recv_buffer e2; exact h
  · have h := congrArg State.send_buffer e2; exact h

/-- A state with a well-formed Outbound is served from itself: no notification. -/
theorem served_refl (env : Env) (s : State) (hw : s.send_buffer.wf) : s.served env s :=
  ⟨rfl, rfl, rfl, hw, ⟨[], by simp, by simp⟩, fun _ => ⟨rfl, rfl⟩⟩

/-- Servicing adds up: the notifications of two stretches follow each other. -/
theorem served_trans (env : Env) (a b c : State) (h1 : a.served env b)
    (h2 : b.served env c) : a.served env c := by
  obtain ⟨r1, c1, l1, _, ⟨ns1, e1, f1⟩, q1⟩ := h1
  obtain ⟨r2, c2, l2, w2, ⟨ns2, e2, f2⟩, q2⟩ := h2
  refine ⟨r2.trans r1, c2.trans c1, l2.trans l1, w2, ⟨ns1 ++ ns2, ?_, ?_⟩, fun h => ?_⟩
  · rw [e2, e1, List.append_assoc]
  · rw [List.map_append, List.flatten_append, List.append_assoc, f2, f1]
  · exact ⟨(q2 h).1.trans (q1 h).1, (q2 h).2.trans (q1 h).2⟩

/-- The relation reads Inbound, the configuration, `buffer`, Outbound and the
notifications only. -/
theorem served_congr (env : Env) (a b a' b' : State) (h : a.served env b)
    (ha : a'.recv_buffer = a.recv_buffer ∧ a'.config = a.config ∧ a'.buffer = a.buffer ∧
      a'.send_buffer = a.send_buffer ∧ a'.sent = a.sent)
    (hb : b'.recv_buffer = b.recv_buffer ∧ b'.config = b.config ∧ b'.buffer = b.buffer ∧
      b'.send_buffer = b.send_buffer ∧ b'.sent = b.sent) : a'.served env b' := by
  obtain ⟨r1, c1, l1, w1, ⟨ns1, e1, f1⟩, q1⟩ := h
  obtain ⟨a1, a2, a3, a4, a5⟩ := ha
  obtain ⟨b1, b2, b3, b4, b5⟩ := hb
  unfold State.served
  rw [a1, a2, a3, a4, a5, b1, b2, b3, b4, b5]
  exact ⟨r1, c1, l1, w1, ⟨ns1, e1, f1⟩, q1⟩

/-- The loop of `getInterruptData` keeps the size of the static `buffer`. -/
theorem getInterruptData_loop_length (k : Nat) (len : Nat) (s : State) :
    ∀ s' n, getInterruptData_loop k len s = .ok (s', n) →
      s'.buffer.length = s.buffer.length := by
  induction k generalizing len s with
  | zero =>
    intro s' n h
    rw [getInterruptData_loop] at h
    injection h with h
    injection h with h1 h2
    rw [← h1]
  | succ k ih =>
    intro s' n h
    by_cases hz : s.send_buffer.size = 0
    · simp only [getInterruptData_loop, hz, ne_eq, not_true_eq_false, if_false] at h
      injection h with h
      injection h with h1 h2
      rw [← h1]
    · simp only [getInterruptData_loop, ne_eq, hz, not_false_eq_true, if_true,
        ringbuffer_get, if_false, Except.bind] at h
      rw [ih _ _ _ _ h]
      simp

/-- One `process_usb` with no request delivered: when the endpoint is ready the
oldest Outbound bytes leave in one notification, after the Inbound size; nothing
is put into either queue. -/
theorem process_usb_served (env : Env) (s : State) (hq : env.usb s.polls = none)
    (hw : s.send_buffer.wf) (hb : s.buffer.length = 8) :
    ∃ s', process_usb env s = .ok s' ∧ s.served env s' ∧ s'.timer = s.timer := by
  unfold process_usb
  rw [hq]
  simp only [usbPoll, Except.bind]
  by_cases hr : env.ready s.polls = true
  · rw [if_pos hr]
    obtain ⟨s1, h1, h2, h3, h4, h5⟩ := getInterruptData_loop_spec 7 1
      { s with polls := s.polls + 1,
               buffer := s.buffer.set 0 s.recv_buffer.size } hw
      (by simp only [List.length_set]; omega)
    have hl := getInterruptData_loop_length 7 1 _ _ _ h1
    simp only [List.length_set] at hl
    have h1' : getInterruptData { s with polls := s.polls + 1 }
        = .ok (s1, 1 + min 7 s.send_buffer.size) := h1
    rw [h1']
    simp only [Except.map]
    rw [if_pos (by omega)]
    simp only at h2 h3
    have htake : (s.buffer.set 0 s.recv_buffer.size).take 1 = [s.recv_buffer.size] := by
      cases hbuf : s.buffer with
      | nil => rw [hbuf] at hb; simp at hb
      | cons x xs => rfl
    refine ⟨_, rfl, ⟨by rw [h5], by rw [h5], hl, h4, ⟨[s1.buffer.take
      (1 + min 7 s.send_buffer.size)], ?_, ?_⟩, fun hn => ?_⟩, by rw [h5]⟩
    · show s1.sent ++ _ = _
      rw [h5]
    · rw [h2, htake]
      show (List.map List.tail [_]).flatten ++ s1.send_buffer.contents = _
      rw [h3]
      simp
    · rw [hn] at hr
      exact absurd hr (by decide)
  · rw [if_neg hr]
    exact ⟨_, rfl,
      served_congr env s s s _ (served_refl env s hw) ⟨rfl, rfl, rfl, rfl, rfl⟩
        ⟨rfl, rfl, rfl, rfl, rfl⟩, rfl⟩

theorem delay_loop_served (env : Env) (hq : ∀ p, env.usb p = none) (end_ fuel : Nat)
    (s : State) (h : s.timer + fuel = end_) (he : end_ < 65536)
    (hw : s.send_buffer.wf) (hb : s.buffer.length = 8) :
    ∃ s', delay_loop env end_ fuel s = .ok s' ∧ s.served env s' := by
  induction fuel generalizing s with
  | zero =>
    refine ⟨s, ?_, served_refl env s hw⟩
    rw [delay_loop, if_neg (by omega)]
  | succ fuel ih =>
    obtain ⟨s1, h1, hs, ht⟩ := process_usb_served env s (hq _) hw hb
    obtain ⟨s2, h2, hs2⟩ := ih (ISR env s1) (by
      show (s1.timer + 1) % 65536 + fuel = end_
      rw [ht, Nat.mod_eq_of_lt (by omega)]
      omega) hs.2.2.2.1 (hs.2.2.1.trans hb)
    refine ⟨s2, ?_, ?_⟩
    · rw [delay_loop, if_pos (by omega), h1]
      exact h2
    · exact served_trans env s s1 s2 hs
        (served_congr env _ _ s1 s2 hs2 ⟨rfl, rfl, rfl, rfl, rfl⟩ ⟨rfl, rfl, rfl, rfl, rfl⟩)

/-- With no request delivered, `delay_ms` returns and only notifications take
bytes from Outbound. -/
theorem delay_ms_served (env : Env) (hq : ∀ p, env.usb p = none) (t : Nat) (s : State)
    (hw : s.send_buffer.wf) (hb : s.buffer.length = 8) :
    ∃ s', delay_ms env t s = .ok s' ∧ s.served env s' := by
  have hlt : t % 65536 < 65536 := Nat.mod_lt _ (by decide)
  obtain ⟨s', h1, h2⟩ := delay_loop_served env hq ((0 + t % 65536) % 65536)
    (t % 65536) { s with timer := 0 }
    (by show 0 + t % 65536 = _; rw [Nat.zero_add, Nat.mod_eq_of_lt hlt])
    (Nat.mod_lt _ (by decide)) hw hb
  refine ⟨s', ?_, served_congr env _ _ s s' h2 ⟨rfl, rfl, rfl, rfl, rfl⟩
    ⟨rfl, rfl, rfl, rfl, rfl⟩⟩
  rw [← h1, delay_ms]
  simp only [Nat.zero_add, Nat.mod_mod]

theorem send_morse_code_bit_served (env : Env) (hq : ∀ p, env.usb p = none)
    (current_sign i : Nat) (s : State) (hw : s.send_buffer.wf) (hb : s.buffer.length = 8) :
    ∃ s', send_morse_code_bit env current_sign i s = .ok s' ∧ s.served env s' := by
  unfold send_morse_code_bit
  by_cases hbit : (current_sign >>> i) &&& 1 ≠ 0
  · rw [if_pos hbit]
    obtain ⟨s', h1, h2⟩ := delay_ms_served env hq (start_output s).config.speed_unit
      (start_output s) hw hb
    exact ⟨s', h1, served_congr env _ _ s s' h2 ⟨rfl, rfl, rfl, rfl, rfl⟩
      ⟨rfl, rfl, rfl, rfl, rfl⟩⟩
  · rw [if_neg hbit]
    obtain ⟨s', h1, h2⟩ := delay_ms_served env hq (stop_output s).config.speed_unit
      (stop_output s) hw hb
    exact ⟨s', h1, served_congr env _ _ s s' h2 ⟨rfl, rfl, rfl, rfl, rfl⟩
      ⟨rfl, rfl, rfl, rfl, rfl⟩⟩

theorem send_morse_code_loop_served (env : Env) (hq : ∀ p, env.usb p = none)
    (current_sign i : Nat) (s : State) (hw : s.send_buffer.wf) (hb : s.buffer.length = 8) :
    ∃ s', send_morse_code_loop env current_sign i s = .ok s' ∧ s.served env s' := by
  induction i generalizing s with
  | zero => exact send_morse_code_bit_served env hq current_sign 0 s hw hb
  | succ i ih =>
    obtain ⟨s1, h1, e1⟩ := send_morse_code_bit_served env hq current_sign (i + 1) s hw hb
    obtain ⟨s2, h2, e2⟩ := ih s1 e1.2.2.2.1 (e1.2.2.1.trans hb)
    refine ⟨s2, ?_, served_trans env s s1 s2 e1 e2⟩
    rw [send_morse_code_loop, h1]
    exact h2

/-- With no request delivered, playing a sign returns and only notifications
take bytes from Outbound. -/
theorem send_morse_code_served (env : Env) (hq : ∀ p, env.usb p = none)
    (current_sign : Nat) (s : State) (hw : s.send_buffer.wf) (hb : s.buffer.length = 8) :
    ∃ s', send_morse_code env current_sign s = .ok s' ∧ s.served env s' := by
  obtain ⟨s1, h1, e1⟩ :=
    send_morse_code_loop_served env hq current_sign (32 - NLZ current_sign) s hw hb
  obtain ⟨s2, h2, e2⟩ := delay_ms_served env hq ((stop_output s1).config.speed_unit * 3)
    (stop_output s1) e1.2.2.2.1 (e1.2.2.1.trans hb)
  refine ⟨s2, ?_, served_trans env s s1 s2 e1
    (served_congr env _ _ s1 s2 e2 ⟨rfl, rfl, rfl, rfl, rfl⟩ ⟨rfl, rfl, rfl, rfl, rfl⟩)⟩
  rw [send_morse_code, h1]
  exact h2


/-- The read loop of the custom-code branch over any run of indices, whatever the
state of Outbound: the bytes it takes from Inbound are the ones it puts, in
their order. -/
theorem custom_fold_puts (idx : List Nat) (s : State) (hrw : s.recv_buffer.wf)
    (hn : idx.length ≤ s.recv_buffer.size) :
    ∃ s', idx.foldlM
        (fun s i => (ringbuffer_get s.recv_buffer).map (fun r =>
          { s with recv_buffer := r.2, send_buffer := ringbuffer_put s.send_buffer r.1,
                   current_sign := (s.current_sign ||| shl_int r.1 (i * 8)) % 2 ^ 32 })) s
        = .ok s' ∧
      s'.recv_buffer.contents = s.recv_buffer.contents.drop idx.length ∧
      s'.send_buffer
        = ringbuffer_puts s.send_buffer (s.recv_buffer.contents.take idx.length) ∧
      s' = { s with recv_buffer := s'.recv_buffer, send_buffer := s'.send_buffer,
                    current_sign := s'.current_sign } := by
  induction idx generalizing s with
  | nil => exact ⟨s, rfl, by simp, by simp [ringbuffer_puts], rfl⟩
  | cons i idx ih =>
    simp only [List.length_cons] at hn
    obtain ⟨v, q', hget, hcont, hwf', hsz⟩ :=
      ringbuffer_get_contents s.recv_buffer hrw (by omega)
    obtain ⟨s', h1, h2, h3, h7⟩ := ih
      { s with recv_buffer := q', send_buffer := ringbuffer_put s.send_buffer v,
               current_sign := (s.current_sign ||| shl_int v (i * 8)) % 2 ^ 32 }
      hwf' (by show idx.length ≤ q'.size; omega)
    refine ⟨s', ?_, ?_, ?_, ?_⟩
    · rw [List.foldlM_cons, hget]
      exact h1
    · rw [h2, hcont]
      rfl
    · rw [h3, hcont]
      rfl
    · rw [h7]

/-- C17: for every environment and every non-empty, well-formed Inbound
`c :: rest`, one inbound step of the main loop is an echo followed by a wait:
it removes from Inbound the bytes `removed` (the one byte `c` for a space or a
table character; `0xFF` and the 4 raw bytes for a custom code whose 4 bytes are
queued), puts exactly these bytes, in their order, into Outbound (so Outbound's
content is the old one followed by `removed` when it is well formed and has room
for them), changes nothing else but the sign, which for a table character is
the table's, and from the state `mid` so reached runs the word-gap wait (space)
or the playback of the sign. With no request delivered during that wait the step
returns, Inbound stays as the echo left it, and Outbound only loses bytes to the
notifications polled by the host (`State.served`): nothing else is appended. -/
theorem inbound_step_echo (MORSE_CODES : Nat → Nat) (env : Env) (fuel : Nat) (s : State)
    (c : Nat) (rest : List Nat) (hrw : s.recv_buffer.wf)
    (hin : s.recv_buffer.contents = c :: rest)
    (hqueued : c = 0xff → 4 ≤ rest.length) :
    ∃ removed mid,
      removed = (if c = 0xff then 0xff :: rest.take 4 else [c]) ∧
      s.recv_buffer.contents = removed ++ mid.recv_buffer.contents ∧
      mid.send_buffer = ringbuffer_puts s.send_buffer removed ∧
      (s.send_buffer.wf → s.send_buffer.size + removed.length ≤ s.send_buffer.capacity →
        mid.send_buffer.contents = s.send_buffer.contents ++ removed) ∧
      mid = { s with recv_buffer := mid.recv_buffer, send_buffer := mid.send_buffer,
                     current_sign := mid.current_sign } ∧
      (c ≠ 0x20 → c ≠ 0xff → mid.current_sign = MORSE_CODES c % 2 ^ 32) ∧
      inbound_step MORSE_CODES env fuel s
        = (if c = 0x20 then delay_ms env (s.config.speed_unit * 4) mid
           else send_morse_code env mid.current_sign mid).map
            (fun s4 => { s4 with current_sign := 0 }) ∧
      ((∀ p, env.usb p = none) → s.send_buffer.wf → s.buffer.length = 8 →
        s.send_buffer.size + removed.length ≤ s.send_buffer.capacity →
        ∃ s', inbound_step MORSE_CODES env fuel s = .ok s' ∧ mid.served env s') := by
  have hlen : s.recv_buffer.size = rest.length + 1 := by
    rw [← ringbuffer_contents_length, hin]
    rfl
  have hsize : s.recv_buffer.size > 0 := by omega
  obtain ⟨v, q, hget, hcont, hqw, hqs⟩ :=
    ringbuffer_get_contents s.recv_buffer hrw (by omega)
  rw [hin] at hcont
  obtain ⟨hv, hrest⟩ := List.cons_eq_cons.mp hcont
  subst hv
  -- every branch: the step is the echo `mid` followed by the wait or the playback
  have key : ∀ (removed : List Nat) (mid : State),
      mid.send_buffer = ringbuffer_puts s.send_buffer removed →
      mid.buffer = s.buffer →
      inbound_step MORSE_CODES env fuel s
        = (if c = 0x20 then delay_ms env (s.config.speed_unit * 4) mid
           else send_morse_code env mid.current_sign mid).map
            (fun s4 => { s4 with current_sign := 0 }) →
      ((∀ p, env.usb p = none) → s.send_buffer.wf → s.buffer.length = 8 →
        s.send_buffer.size + removed.length ≤ s.send_buffer.capacity →
        ∃ s', inbound_step MORSE_CODES env fuel s = .ok s' ∧ mid.served env s') := by
    intro removed mid hput hbuf hstep hq hsw hb hroom
    have hmw : mid.send_buffer.wf := by
      rw [hput]
      exact (ringbuffer_puts_contents removed s.send_buffer hsw hroom).2.1
    have hmb : mid.buffer.length = 8 := by rw [hbuf]; exact hb
    rw [hstep]
    by_cases h20 : c = 0x20
    · rw [if_pos h20]
      obtain ⟨s2, h2, e2⟩ := delay_ms_served env hq (s.config.speed_unit * 4) mid hmw hmb
      rw [h2]
      exact ⟨_, rfl, served_congr env _ _ mid _ e2 ⟨rfl, rfl, rfl, rfl, rfl⟩
        ⟨rfl, rfl, rfl, rfl, rfl⟩⟩
    · rw [if_neg h20]
      obtain ⟨s2, h2, e2⟩ := send_morse_code_served env hq mid.current_sign mid hmw hmb
      rw [h2]
      exact ⟨_, rfl, served_congr env _ _ mid _ e2 ⟨rfl, rfl, rfl, rfl, rfl⟩
        ⟨rfl, rfl, rfl, rfl, rfl⟩⟩
  by_cases hc : c = 0xff
  · subst hc
    have h4 : 4 ≤ q.size := by
      rw [hqs, hlen]
      have := hqueued rfl
      omega
    obtain ⟨t3, h1, h2, h3, h7⟩ := custom_fold_puts [0, 1, 2, 3]
      { s with recv_buffer := q, send_buffer := ringbuffer_put s.send_buffer 0xff,
               current_sign := 0 }
      hqw h4
    have hput : t3.send_buffer = ringbuffer_puts s.send_buffer (0xff :: rest.take 4) := by
      rw [h3]
      show ringbuffer_puts (ringbuffer_put s.send_buffer 0xff) (List.take 4 q.contents) = _
      rw [hrest]
      rfl
    have hstep : inbound_step MORSE_CODES env fuel s
        = (if (0xff : Nat) = 0x20 then delay_ms env (s.config.speed_unit * 4) t3
           else send_morse_code env t3.current_sign t3).map
            (fun s4 => { s4 with current_sign := 0 }) := by
      rw [inbound_step, if_pos hsize, hget]
      simp only [Except.bind]
      rw [if_pos trivial, custom_wait_queued env fuel _ h4]
      simp only
      have h1' : custom_loop
          { s with recv_buffer := q, send_buffer := ringbuffer_put s.send_buffer 0xff,
                   current_sign := 0 } = .ok t3 := h1
      rw [h1', if_neg (by decide)]
      rfl
    refine ⟨0xff :: rest.take 4, t3, by rw [if_pos rfl], ?_, hput, ?_, ?_, ?_, hstep,
      key _ t3 hput (by rw [h7]) hstep⟩
    · rw [hin, h2]
      show _ = 0xff :: (List.take 4 rest ++ List.drop 4 q.contents)
      rw [hrest, List.take_append_drop]
    · intro hsw hroom
      rw [hput]
      exact (ringbuffer_puts_contents _ s.send_buffer hsw hroom).1
    · rw [h7]
    · intro _ h
      exact absurd rfl h
  · have hput : ringbuffer_put s.send_buffer c = ringbuffer_puts s.send_buffer [c] := rfl
    have hcontents : ∀ mid : State, mid.send_buffer = ringbuffer_put s.send_buffer c →
        s.send_buffer.wf → s.send_buffer.size + [c].length ≤ s.send_buffer.capacity →
        mid.send_buffer.contents = s.send_buffer.contents ++ [c] := by
      intro mid hm hsw hroom
      rw [hm]
      exact (ringbuffer_put_contents s.send_buffer c hsw hroom).1
    by_cases h20 : c = 0x20
    · have hstep : inbound_step MORSE_CODES env fuel s
          = (if c = 0x20 then delay_ms env (s.config.speed_unit * 4)
              { s with recv_buffer := q, send_buffer := ringbuffer_put s.send_buffer c }
             else send_morse_code env s.current_sign
              { s with recv_buffer := q, send_buffer := ringbuffer_put s.send_buffer c }).map
              (fun s4 => { s4 with current_sign := 0 }) := by
        rw [inbound_step, if_pos hsize, hget]
        simp only [Except.bind]
        rw [if_pos h20, if_pos h20]
      refine ⟨[c], { s with recv_buffer := q,
                            send_buffer := ringbuffer_put s.send_buffer c },
        by rw [if_neg hc], ?_, hput, hcontents _ rfl, rfl, fun h => absurd h20 h, hstep,
        key _ _ hput rfl hstep⟩
      rw [hin, ← hrest]
      rfl
    · have hstep : inbound_step MORSE_CODES env fuel s
          = (if c = 0x20 then delay_ms env (s.config.speed_unit * 4)
              { s with recv_buffer := q, current_sign := MORSE_CODES c % 2 ^ 32,
                       send_buffer := ringbuffer_put s.send_buffer c }
             else send_morse_code env (MORSE_CODES c % 2 ^ 32)
              { s with recv_buffer := q, current_sign := MORSE_CODES c % 2 ^ 32,
                       send_buffer := ringbuffer_put s.send_buffer c }).map
              (fun s4 => { s4 with current_sign := 0 }) := by
        rw [inbound_step, if_pos hsize, hget]
        simp only [Except.bind]
        rw [if_neg h20, if_neg hc, if_neg h20]
      refine ⟨[c], { s with recv_buffer := q, current_sign := MORSE_CODES c % 2 ^ 32,
                            send_buffer := ringbuffer_put s.send_buffer c },
        by rw [if_neg hc], ?_, hput, hcontents _ rfl, rfl, fun _ _ => rfl, hstep,
        key _ _ hput rfl hstep⟩
      rw [hin, ← hrest]
      rfl

set_option maxRecDepth 100000 in
/-- Witness of C17: the byte `0x41` with the table sign of dot, dash, alone in
Inbound at power-on with the link idle (it ends in Outbound), and a custom code
`0xFF, 1, 2, 3, 4` with the host polling the endpoint during the playback (the
five bytes are in the notifications sent and in Outbound, in their order). -/
theorem inbound_step_echo_witness :
    (∃ s', inbound_step (fun _ => 0b010111) quiet 0
        { boot with recv_buffer := ringbuffer_puts boot.recv_buffer [0x41] } = .ok s' ∧
      s'.recv_buffer.contents = [] ∧ s'.send_buffer.contents = [0x41] ∧ s'.sent = []) ∧
    (∃ s' ns, inbound_step (fun _ => 0b010111) polling 0
        { boot with recv_buffer := ringbuffer_puts boot.recv_buffer [0xff, 1, 2, 3, 4] }
        = .ok s' ∧
      s'.recv_buffer.contents = [] ∧ s'.sent = ns ∧
      (ns.map List.tail).flatten ++ s'.send_buffer.contents = [0xff, 1, 2, 3, 4]) := by
  constructor
  · obtain ⟨removed, mid, hrem, hrecv, _, hsend, hframe, _, _, hret⟩ :=
      inbound_step_echo (fun _ => 0b010111) quiet 0
        { boot with recv_buffer := ringbuffer_puts boot.recv_buffer [0x41] } 0x41 []
        (by decide) (by decide) (by decide)
    have hrem' : removed = [0x41] := hrem
    subst hrem'
    obtain ⟨s', hok, hr, _, _, _, _, hquiet⟩ :=
      hret (fun _ => rfl) (by decide) (by decide) (by decide)
    have hsent : mid.sent = [] := by rw [hframe]; rfl
    have hmid : mid.recv_buffer.contents = [] := by
      have h : [0x41] = [0x41] ++ mid.recv_buffer.contents := hrecv
      simpa using h
    refine ⟨s', hok, by rw [hr, hmid], ?_, by rw [(hquiet (fun _ => rfl)).2, hsent]⟩
    rw [(hquiet (fun _ => rfl)).1, hsend (by decide) (by decide)]
    rfl
  · obtain ⟨removed, mid, hrem, hrecv, _, hsend, hframe, _, _, hret⟩ :=
      inbound_step_echo (fun _ => 0b010111) polling 0
        { boot with recv_buffer := ringbuffer_puts boot.recv_buffer [0xff, 1, 2, 3, 4] }
        0xff [1, 2, 3, 4] (by decide) (by decide) (by decide)
    have hrem' : removed = [0xff, 1, 2, 3, 4] := hrem
    subst hrem'
    obtain ⟨s', hok, hr, _, _, _, ⟨ns, hns, hacc⟩, _⟩ :=
      hret (fun _ => rfl) (by decide) (by decide) (by decide)
    have hsent : mid.sent = [] := by rw [hframe]; rfl
    have hmid : mid.recv_buffer.contents = [] := by
      have h : [0xff, 1, 2, 3, 4] = [0xff, 1, 2, 3, 4] ++ mid.recv_buffer.contents := hrecv
      simpa using h
    refine ⟨s', ns, hok, by rw [hr, hmid], by rw [hns, hsent]; rfl, ?_⟩
    rw [hacc, hsend (by decide) (by decide)]
    rfl

theorem shl_int_zero (b : Nat) (h : b < 256) : shl_int b 0 = b := by
  simp only [shl_int, Nat.shiftLeft_zero]
  rw [if_pos (by decide), Nat.mod_eq_of_lt (by omega), if_pos (by omega)]

theorem shl_int_eight (b : Nat) (h : b < 256) : ∃ a, shl_int b 8 = 2 ^ 8 * a := by
  simp only [shl_int, Nat.shiftLeft_eq]
  rw [if_pos (by decide), Nat.mod_eq_of_lt (by omega)]
  by_cases hv : b * 2 ^ 8 < 32768
  · exact ⟨b, by rw [if_pos hv, Nat.mul_comm]⟩
  · exact ⟨b + 0xFFFF00, by rw [if_neg hv]; omega⟩

theorem shl_int_wide (b k : Nat) (hk : 16 ≤ k) : shl_int b k = 0 := by
  rw [shl_int, if_neg (by omega)]

/-- The sign the read loop assembles from four raw bytes has the first of them
as its lowest byte. -/
theorem assembled_low_byte (b0 b1 b2 b3 : Nat) (h0 : b0 < 256) (h1 : b1 < 256) :
    (([0, 1, 2, 3].zip [b0, b1, b2, b3]).foldl
      (fun sg p => (sg ||| shl_int p.2 (p.1 * 8)) % 2 ^ 32) 0) % 256 = b0 := by
  obtain ⟨a, ha⟩ := shl_int_eight b1 h1
  simp only [List.zip_cons_cons, List.zip_nil_right, List.foldl_cons, List.foldl_nil,
    Nat.zero_mul, Nat.one_mul, Nat.zero_or, shl_int_zero b0 h0,
    shl_int_wide b2 (2 * 8) (by decide), shl_int_wide b3 (3 * 8) (by decide), Nat.or_zero,
    Nat.mod_mod, ha]
  rw [Nat.mod_eq_of_lt (by omega : b0 < 2 ^ 32), Nat.lor_comm,
    ← Nat.mul_add_lt_is_or (by omega : b0 < 2 ^ 8),
    Nat.mod_mod_of_dvd _ (by decide : 256 ∣ 2 ^ 32)]
  omega

/-- C18, amended to the byte orders of the code: for every pending sign `s`
flushed by the gap step into an empty Outbound, when the five bytes are
delivered to Inbound and the inbound step runs with nothing on the link, the
custom-code branch takes the `0xFF`, its read loop consumes the 4 raw bytes and
echoes all five, and the sign it hands to `send_morse_code` has the first raw
byte, `s[31:24]`, as its least significant byte: the parser reads the raw bytes
least significant first, the flush emits them most significant first. -/
theorem custom_code_byte_order (MORSE_CODES : Nat → Nat) (fuel : Nat) (k s : State)
    (hk1 : k.sending ≠ 0) (hk2 : k.config.speed_unit * 2 < k.keying_timer)
    (hkw : k.send_buffer.wf) (hke : k.send_buffer.size = 0)
    (hkc : 5 ≤ k.send_buffer.capacity)
    (hrw : s.recv_buffer.wf) (hsw : s.send_buffer.wf)
    (hroom : s.send_buffer.size + 5 ≤ s.send_buffer.capacity)
    (hin : s.recv_buffer.contents = (gap_step k).send_buffer.contents) :
    (gap_step k).send_buffer.contents
        = [0xFF, k.current_sign / 2 ^ 24 % 256, k.current_sign / 2 ^ 16 % 256,
            k.current_sign / 2 ^ 8 % 256, k.current_sign % 256] ∧
    ∃ q t3, ringbuffer_get s.recv_buffer = .ok (0xff, q) ∧
      custom_loop
        { s with recv_buffer := q, send_buffer := ringbuffer_put s.send_buffer 0xff,
                 current_sign := 0 } = .ok t3 ∧
      inbound_step MORSE_CODES quiet fuel s
        = (send_morse_code quiet t3.current_sign t3).map
            (fun s4 => { s4 with current_sign := 0 }) ∧
      t3.recv_buffer.contents = [] ∧
      t3.send_buffer.contents
        = s.send_buffer.contents ++ (gap_step k).send_buffer.contents ∧
      t3.current_sign % 256 = k.current_sign / 2 ^ 24 % 256 := by
  have hempty : k.send_buffer.contents = [] := by
    simp [ringbuffer.contents, hke]
  have hflush : (gap_step k).send_buffer.contents
      = [0xFF, k.current_sign / 2 ^ 24 % 256, k.current_sign / 2 ^ 16 % 256,
          k.current_sign / 2 ^ 8 % 256, k.current_sign % 256] := by
    rw [gap_step_flush k hk2 hk1, flush_loop_bytes]
    have h := (ringbuffer_puts_contents
      [0xFF, k.current_sign / 2 ^ 24 % 256, k.current_sign / 2 ^ 16 % 256,
        k.current_sign / 2 ^ 8 % 256, k.current_sign % 256] k.send_buffer hkw
      (by rw [hke]; exact hkc)).1
    rw [hempty] at h
    exact h
  refine ⟨hflush, ?_⟩
  rw [hflush] at hin ⊢
  have hlen : s.recv_buffer.size = 5 := by
    rw [← ringbuffer_contents_length, hin]
    rfl
  obtain ⟨v, q, hget, hcont, hqw, hqs⟩ :=
    ringbuffer_get_contents s.recv_buffer hrw (by omega)
  rw [hin] at hcont
  obtain ⟨hv, hrest⟩ := List.cons_eq_cons.mp hcont
  subst hv
  obtain ⟨hpc, hpw, hps, hpk⟩ := ringbuffer_put_contents s.send_buffer 0xff hsw (by omega)
  have h4 : 4 ≤ q.size := by omega
  obtain ⟨t3, h1, h2, h3, h5, _, _, _⟩ := custom_fold [0, 1, 2, 3]
    { s with recv_buffer := q, send_buffer := ringbuffer_put s.send_buffer 0xff,
             current_sign := 0 }
    hqw hpw h4
    (by show (ringbuffer_put s.send_buffer 0xff).size + 4
          ≤ (ringbuffer_put s.send_buffer 0xff).capacity
        omega)
  refine ⟨q, t3, hget, h1, (inbound_step_custom MORSE_CODES fuel s q (by omega) hget h4 t3
    h1).1, ?_, ?_, ?_⟩
  · rw [h2]
    show List.drop 4 q.contents = []
    rw [← hrest]
    rfl
  · rw [h3]
    show (ringbuffer_put s.send_buffer 0xff).contents ++ List.take 4 q.contents = _
    rw [hpc, ← hrest]
    simp
  · rw [h5]
    show (([0, 1, 2, 3].zip (List.take 4 q.contents)).foldl _ 0) % 256 = _
    rw [← hrest]
    exact assembled_low_byte _ _ _ _ (Nat.mod_lt _ (by decide)) (Nat.mod_lt _ (by decide))

set_option maxRecDepth 100000 in
/-- Witness of the amended C18 at the sign `0x01020304`: flushed as
`0xFF, 1, 2, 3, 4`, read back with lowest byte 1. -/
theorem custom_code_byte_order_witness :
    ∃ q t3, ringbuffer_get (ringbuffer_puts boot.recv_buffer [0xff, 1, 2, 3, 4])
        = .ok (0xff, q) ∧
      custom_loop
        { boot with recv_buffer := q, send_buffer := ringbuffer_put boot.send_buffer 0xff,
                    current_sign := 0 } = .ok t3 ∧
      t3.recv_buffer.contents = [] ∧ t3.current_sign % 256 = 1 :=
  have h := (custom_code_byte_order (fun _ => 0) 0
    { boot with sending := 1, current_sign := 0x01020304, keying_timer := 121 }
    { boot with recv_buffer := ringbuffer_puts boot.recv_buffer [0xff, 1, 2, 3, 4] }
    (by decide) (by decide) (by decide) (by decide) (by decide) (by decide) (by decide)
    (by decide) (by decide)).2
  h.imp (fun _ h1 => h1.imp (fun _ h2 => ⟨h2.1, h2.2.1, h2.2.2.2.1, h2.2.2.2.2.2⟩))

set_option maxRecDepth 100000 in
/-- C18 as stated fails at the sign of a single dot, `s = 1`: the flush emits
`0xFF, 0, 0, 0, 1`; delivered to Inbound and taken by the custom-code branch, the
read loop hands the sign 0 to `send_morse_code`, not 1 (the byte 1 arrives fourth
and is shifted by 24). -/
theorem custom_code_single_dot :
    (gap_step { boot with sending := 1, current_sign := 1, keying_timer := 121
      }).send_buffer.contents = [0xFF, 0, 0, 0, 1] ∧
    ∃ q t3, ringbuffer_get (ringbuffer_puts boot.recv_buffer [0xFF, 0, 0, 0, 1])
        = .ok (0xff, q) ∧
      custom_loop
        { boot with recv_buffer := q, send_buffer := ringbuffer_put boot.send_buffer 0xff,
                    current_sign := 0 } = .ok t3 ∧
      inbound_step (fun _ => 0) quiet 0
          { boot with recv_buffer := ringbuffer_puts boot.recv_buffer [0xFF, 0, 0, 0, 1] }
        = (send_morse_code quiet t3.current_sign t3).map
            (fun s4 => { s4 with current_sign := 0 }) ∧
      t3.current_sign = 0 ∧ t3.current_sign ≠ 1 := by
  refine ⟨by decide, _, _, rfl, rfl, ?_, rfl, by decide⟩
  exact (inbound_step_custom (fun _ => 0) 0
    { boot with recv_buffer := ringbuffer_puts boot.recv_buffer [0xFF, 0, 0, 0, 1] } _
    (by decide) rfl (by decide) _ rfl).1

end AvrUsbCw
